import Mathlib

/-!
Verification of the filesystem tree operations engine of `n8n-nodes-klib`.

This file gives a shallow embedding, in Lean 4, of the pure logic of the
repository's filesystem operations:

* `src/nodes/FsUtils/operations/directoryProtection.ts`
  (`checkDirectoryDepth`, `isProtectedDirectory`, `checkDirectorySafety`),
* the `sanitizeFileName` function of the fix-names operation and the
  `sanitizePath` function of `lib/utils`,
* the post-traversal filter/sort pipeline of `listDirectory` and the
  per-entry filter and sort of `findFiles`,
* the recursive walker `listDirectoryRecursive`,
* the bulk mutators `deleteFiles`, `moveFiles` (processDirectory),
  `flattenDirectory`, `cleanEmptyDirectories`, and `rename`.

Filesystem state is modelled by an explicit tree type (`FSNode` /
`FSChildren`); every `fs.promises` mutation of the source becomes a pure
state transformation, every `throw` becomes `Except.error`.  External
facilities (the JavaScript `RegExp` engine, the locale of
`String.localeCompare`, the POSIX `find` regex matcher) are modelled as
explicit function parameters, as noted at each definition.

Node's `path` module is modelled for the POSIX platform (the runtime the
code targets: `findFiles` refuses to run on Windows).
-/

namespace Klib

/-! ## Node `path` module (POSIX), as used by the repository

The built-in `String.splitOn`, `String.startsWith` etc. are defined by
well-founded recursion and do not evaluate inside the kernel, so the
string manipulation below is done with structurally recursive functions
over `List Char`. -/

/-- Split a string at every `/`, keeping empty segments
(the behaviour of JavaScript `"…".split('/')`). -/
def splitSlashGo (cur : List Char) : List Char → List String
  | [] => [String.mk cur.reverse]
  | c :: cs =>
    if c = '/' then String.mk cur.reverse :: splitSlashGo [] cs
    else splitSlashGo (c :: cur) cs

/-- Split a string at every `/`, keeping empty segments. -/
def splitSlash (s : String) : List String := splitSlashGo [] s.toList

/-- `a.startsWith b`, kernel-evaluable. -/
def strStartsWith (a b : String) : Bool := b.toList.isPrefixOf a.toList

/-- Does the string begin with `/`? -/
def headIsSlash (s : String) : Bool :=
  match s.toList with
  | '/' :: _ => true
  | _ => false

/-- Does the string end with `/`? -/
def lastIsSlash (s : String) : Bool :=
  match s.toList.reverse with
  | '/' :: _ => true
  | _ => false

/-- Join segments with `/` (JavaScript `segments.join('/')`). -/
def joinSlash : List String → String
  | [] => ""
  | [s] => s
  | s :: rest => s ++ "/" ++ joinSlash rest

/-- One step of Node's `normalizeString`: resolve `.` and `..` segments.
The accumulator `stack` holds the resolved segments in reverse order.
`allowAbove` is true for relative paths, where leading `..` survive. -/
def normSegs (allowAbove : Bool) (stack : List String) : List String → List String
  | [] => stack
  | seg :: rest =>
    if seg = "" || seg = "." then normSegs allowAbove stack rest
    else if seg = ".." then
      match stack with
      | top :: ts =>
        if top = ".." then normSegs allowAbove (seg :: top :: ts) rest
        else normSegs allowAbove ts rest
      | [] =>
        if allowAbove then normSegs allowAbove [seg] rest
        else normSegs allowAbove [] rest
    else normSegs allowAbove (seg :: stack) rest

/-- Node `path.posix.normalize`: collapse repeated separators, resolve `.`
and `..`, preserve a trailing separator, return `"."` for an empty result
on a relative path. -/
def normalize (p : String) : String :=
  if p = "" then "."
  else
    let isAbs := headIsSlash p
    let trailing := lastIsSlash p
    let segs := (normSegs (!isAbs) [] (splitSlash p)).reverse
    let body := joinSlash segs
    if body = "" then
      if isAbs then "/" else if trailing then "./" else "."
    else
      let body := if trailing then body ++ "/" else body
      if isAbs then "/" ++ body else body

/-- Node `path.posix.dirname` (used by `rename` for `mkdir(dirname(target))`):
drop trailing separators, then drop the last component. -/
def dirname (p : String) : String :=
  let chars := p.toList
  let noTrail := (chars.reverse.dropWhile (· = '/')).reverse
  if noTrail = [] then (if p.startsWith "/" then "/" else ".")
  else
    let upToSlash := (noTrail.reverse.dropWhile (· ≠ '/')).reverse
    let stripped := (upToSlash.reverse.dropWhile (· = '/')).reverse
    if upToSlash = [] then "."
    else if stripped = [] then "/"
    else String.mk stripped

/-! ## `directoryProtection.ts` -/

/-- `PROTECTED_DIRS` of `directoryProtection.ts`, verbatim. -/
def PROTECTED_DIRS : List String :=
  ["/", "/bin", "/boot", "/dev", "/etc", "/lib", "/lib64", "/proc",
   "/root", "/run", "/sbin", "/srv", "/sys",
   "C:\\", "C:\\Windows", "C:\\Program Files", "C:\\Program Files (x86)",
   "C:\\Users", "C:\\System32"]

/-- `DirectoryProtectionConfig`: all three fields optional in the source,
with defaults `minDepth 3`, `maxDepth 10`, `allowProtectedDirs false`
applied via `??` at each use site. -/
structure DirectoryProtectionConfig where
  minDepth : Option Int := none
  maxDepth : Option Int := none
  allowProtectedDirs : Option Bool := none
deriving DecidableEq, Repr

/-- `DEFAULT_PROTECTION_CONFIG` of the source. -/
def DEFAULT_PROTECTION_CONFIG : DirectoryProtectionConfig :=
  { minDepth := some 3, maxDepth := some 10, allowProtectedDirs := some false }

/-- The segment depth computed by `checkDirectoryDepth`:
`path.normalize(dirPath).split(path.sep).filter(part => part !== '').length`. -/
def pathDepth (dirPath : String) : Int :=
  ((splitSlash (normalize dirPath)).filter (fun part => part ≠ "")).length

/-- `checkDirectoryDepth` of `directoryProtection.ts`: throws (models as
`Except.error`) when the segment depth lies outside `[minDepth, maxDepth]`. -/
def checkDirectoryDepth (dirPath : String)
    (config : DirectoryProtectionConfig := {}) : Except String Bool :=
  let minDepth := config.minDepth.getD 3
  let maxDepth := config.maxDepth.getD 10
  let depth := pathDepth dirPath
  if depth < minDepth || depth > maxDepth then
    Except.error "Directory depth out of allowed range"
  else
    Except.ok true

/-- The protected-root test of `isProtectedDirectory`, without the
`allowProtectedDirs` bypass: the normalized path equals a normalized
protected directory or extends it by a separator. -/
def underProtectedRoot (dirPath : String) : Bool :=
  let normalizedPath := normalize dirPath
  PROTECTED_DIRS.any fun protectedDir =>
    let npd := normalize protectedDir
    normalizedPath = npd || strStartsWith normalizedPath (npd ++ "/")

/-- `isProtectedDirectory` of `directoryProtection.ts`. -/
def isProtectedDirectory (dirPath : String)
    (config : DirectoryProtectionConfig := {}) : Bool :=
  if config.allowProtectedDirs.getD false then false
  else underProtectedRoot dirPath

/-- `checkDirectorySafety` of `directoryProtection.ts`: protected-directory
check first, then the depth-range check; either failure throws.  The
function is pure (no filesystem access) in the source as well. -/
def checkDirectorySafety (dirPath : String)
    (config : DirectoryProtectionConfig := {}) : Except String Unit :=
  if isProtectedDirectory dirPath config then
    Except.error ("Operation on system directory is not allowed: " ++ dirPath)
  else
    match checkDirectoryDepth dirPath config with
    | Except.error e => Except.error e
    | Except.ok _ => Except.ok ()

/-! ## `sanitizeFileName` (fix-names fallback of `fixFileNames.ts`)

JavaScript strings are processed code unit by code unit
(`charAt`/`charCodeAt`); all characters involved lie in the basic
multilingual plane, where Lean `Char` code points coincide with UTF-16
code units. -/

/-- The allow-list of the per-character loop: printable ASCII (32–126),
CJK unified ideographs, hiragana, katakana. -/
def isAllowedChar (c : Char) : Bool :=
  (32 ≤ c.toNat && c.toNat ≤ 126) ||
  (0x4E00 ≤ c.toNat && c.toNat ≤ 0x9FFF) ||
  (0x3040 ≤ c.toNat && c.toNat ≤ 0x309F) ||
  (0x30A0 ≤ c.toNat && c.toNat ≤ 0x30FF)

/-- The character class `[<>:"/\\|?*]` of Windows-reserved characters. -/
def isIllegalWinChar (c : Char) : Bool :=
  c = '<' || c = '>' || c = ':' || c = '"' || c = '/' ||
  c = '\\' || c = '|' || c = '?' || c = '*'

/-- Replace every character outside the allow-list with `_`
(the `for` loop of `sanitizeFileName`). -/
def replaceDisallowed (l : List Char) : List Char :=
  l.map fun c => if isAllowedChar c then c else '_'

/-- `replace(/[<>:"/\\|?*]/g, '_')`. -/
def replaceIllegalWin (l : List Char) : List Char :=
  l.map fun c => if isIllegalWinChar c then '_' else c

/-- `replace(/_+/g, '_')`: collapse each maximal run of underscores into
one underscore. -/
def collapseUnderscores : List Char → List Char
  | [] => []
  | c :: cs =>
    match collapseUnderscores cs with
    | [] => [c]
    | d :: ds => if c = '_' && d = '_' then d :: ds else c :: d :: ds

/-- Length (including the dot) of the extension Node `path.extname`
finds in a plain basename: the suffix starting at the last `.`, except
that a dot in first position begins no extension and `".."` has none. -/
def extnameLen (l : List Char) : Nat :=
  if l = ['.', '.'] then 0
  else
    let tail := l.reverse.takeWhile (fun c => c ≠ '.')
    if tail.length = l.length then 0
    else if l.length - tail.length - 1 = 0 then 0
    else tail.length + 1

/-- The over-255-characters branch of `sanitizeFileName`:
`baseName.substring(0, 255 - ext.length) + ext`, with JavaScript
`substring` clamping a negative end index to 0 (as `Nat` subtraction does). -/
def truncate255 (l : List Char) : List Char :=
  let extLen := extnameLen l
  (l.take (l.length - extLen)).take (255 - extLen) ++ l.drop (l.length - extLen)

/-- `!safeFileName.trim()`: true iff every character is whitespace.  At
the point of use every character is in the allow-list, where the only
whitespace character is the plain space. -/
def allSpaces (l : List Char) : Bool := l.all (fun c => c = ' ')

/-- The three replacement passes of `sanitizeFileName`: allow-list
filter, Windows-reserved-character replacement, underscore collapse. -/
def sanitizeCore (l : List Char) : List Char :=
  collapseUnderscores (replaceIllegalWin (replaceDisallowed l))

/-- `if (!safeFileName.trim()) safeFileName = 'unnamed_file'`. -/
def emptyFallback (t : List Char) : List Char :=
  if allSpaces t then "unnamed_file".toList else t

/-- `if (safeFileName.length > 255) …` . -/
def capLength (t : List Char) : List Char :=
  if t.length > 255 then truncate255 t else t

/-- `sanitizeFileName` of `fixFileNames.ts` (the Node fallback used when
the shell-based path fails): allow-list filter, Windows-reserved-character
replacement, underscore collapse, empty fallback, 255-character cap,
applied in the source's order. -/
def sanitizeFileName (fileName : String) : String :=
  String.mk (capLength (emptyFallback (sanitizeCore fileName.toList)))

/-! ## `sanitizePath` (`lib/utils.ts`) -/

/-- The character class `[<>:"/\\|?*\x00-\x1F]` of `sanitizePath`. -/
def isIllegalPathChar (c : Char) : Bool :=
  isIllegalWinChar c || c.toNat ≤ 31

/-- The character class `[\u0000-\u001F\u0080-\u009F]`. -/
def isControlChar (c : Char) : Bool :=
  c.toNat ≤ 31 || (0x80 ≤ c.toNat && c.toNat ≤ 0x9F)

/-- JavaScript `\s` (the whitespace characters relevant here). -/
def isJsSpace (c : Char) : Bool :=
  c = ' ' || c = '\t' || c = '\n' || c = '\r' ||
  c.toNat = 0x0B || c.toNat = 0x0C || c.toNat = 0xA0 || c.toNat = 0xFEFF ||
  (0x2000 ≤ c.toNat && c.toNat ≤ 0x200A) ||
  c.toNat = 0x1680 || c.toNat = 0x2028 || c.toNat = 0x2029 ||
  c.toNat = 0x202F || c.toNat = 0x205F || c.toNat = 0x3000

/-- `replace(/\s+/g, ' ')`: each maximal whitespace run becomes one space. -/
def collapseSpaces : List Char → List Char
  | [] => []
  | c :: cs =>
    let t := collapseSpaces cs
    if isJsSpace c then
      match t with
      | ' ' :: ds => ' ' :: ds
      | _ => ' ' :: t
    else c :: t

/-- JavaScript `String.prototype.trim`. -/
def jsTrim (l : List Char) : List Char :=
  ((l.dropWhile isJsSpace).reverse.dropWhile isJsSpace).reverse

/-- The case-insensitive reserved-device-name test
`/^(CON|PRN|AUX|NUL|COM[1-9]|LPT[1-9])$/i`. -/
def isReservedName (l : List Char) : Bool :=
  let u := l.map Char.toUpper
  u = "CON".toList || u = "PRN".toList || u = "AUX".toList || u = "NUL".toList ||
  (match u with
   | [a, b, c, d] =>
     ((a = 'C' && b = 'O' && c = 'M') || (a = 'L' && b = 'P' && c = 'T')) &&
     ('1' ≤ d && d ≤ '9')
   | _ => false)

/-- Node `path.posix.join` of two parts: concatenate with `/` and
normalize (both arguments are non-empty at the call site). -/
def pathJoin (a b : String) : String := normalize (a ++ "/" ++ b)

/-- `sanitizePath` of `lib/utils.ts`: parse the path, clean the basename
(illegal and control characters, whitespace runs, trim), prefix reserved
device names with `_`, cap at 255 characters, fall back to `_unnamed`,
and re-attach the untouched directory part and extension. -/
def sanitizePath (filePath : String) : String :=
  let l := filePath.toList
  let base := (l.reverse.takeWhile (fun c => c ≠ '/')).reverse
  let hasDir := decide (base.length ≠ l.length)
  let preLen := l.length - base.length - 1
  let dir : List Char := if hasDir then (if preLen = 0 then ['/'] else l.take preLen) else []
  let extLen := extnameLen base
  let nameChars := base.take (base.length - extLen)
  let ext := base.drop (base.length - extLen)
  let fn := nameChars.map fun c => if isIllegalPathChar c then '_' else c
  let fn := fn.map fun c => if isControlChar c then '_' else c
  let fn := jsTrim (collapseSpaces fn)
  let fn := if isReservedName fn then '_' :: fn else fn
  let fn := if fn.length > 255 then fn.take 255 else fn
  let fn := if fn = [] then "_unnamed".toList else fn
  if dir ≠ [] then pathJoin (String.mk dir) (String.mk (fn ++ ext))
  else String.mk (fn ++ ext)

/-- A character that the first two sanitization passes can output:
either an allowed, non-reserved character, or the underscore. -/
def goodChar (c : Char) : Bool :=
  (isAllowedChar c && !isIllegalWinChar c) || c = '_'

/-- The composition of the two per-character replacement passes of
`sanitizeFileName`. -/
def sanChar (c : Char) : Char :=
  let c1 := if isAllowedChar c then c else '_'
  if isIllegalWinChar c1 then '_' else c1

/-- The 302-character name on which `sanitizeFileName` fails to be
idempotent: its extension alone exceeds 255 characters. -/
def longDotName : String := String.mk ('a' :: '.' :: List.replicate 300 'b')

/-! ## Filesystem state model

A directory tree: `FSChildren` is the ordered list of entries returned
by `readdir`, `FSNode` one entry (file with size and mtime, or directory
with mtime and children).  Rename order within a directory is modelled
as in-place replacement; newly created entries append at the end. -/

mutual
inductive FSNode where
  | file (size mtime : Int)
  | dir (mtime : Int) (children : FSChildren)
deriving DecidableEq, Repr

inductive FSChildren where
  | nil
  | cons (name : String) (node : FSNode) (rest : FSChildren)
deriving DecidableEq, Repr
end

mutual
/-- Size measure used for structural inductions over the tree. -/
def nodeSize : FSNode → Nat
  | .file _ _ => 1
  | .dir _ cs => 1 + childSize cs

/-- Size measure used for structural inductions over the tree. -/
def childSize : FSChildren → Nat
  | .nil => 0
  | .cons _ n rest => 1 + nodeSize n + childSize rest
end

/-- `hasSubDirectories`: does a directory's immediate child list contain
a directory (one level only)? -/
def childrenHasDir : FSChildren → Bool
  | .nil => false
  | .cons _ (.dir _ _) _ => true
  | .cons _ (.file _ _) rest => childrenHasDir rest

/-- The `readdir` name list of a directory. -/
def childNames : FSChildren → List String
  | .nil => []
  | .cons n _ rest => n :: childNames rest

/-- Look a child up by name. -/
def lookupChild : FSChildren → String → Option FSNode
  | .nil, _ => none
  | .cons n node rest, m => if n = m then some node else lookupChild rest m

/-- `fs.access`-style existence check for a name in a directory. -/
def hasChild (cs : FSChildren) (n : String) : Bool := (lookupChild cs n).isSome

/-- Append a new entry at the end (a freshly created directory entry). -/
def appendChild : FSChildren → String → FSNode → FSChildren
  | .nil, n, node => .cons n node .nil
  | .cons m k rest, n, node => .cons m k (appendChild rest n node)

/-- Is the entry list empty (`readdir(...).length === 0`)? -/
def isNilChildren : FSChildren → Bool
  | .nil => true
  | .cons _ _ _ => false

/-- `path.join(parent, name)` for a clean parent and a slash-free name
(the only way the walkers build paths). -/
def joinName (parent name : String) : String := parent ++ "/" ++ name

/-- Node `path.posix.basename`: last component, ignoring trailing slashes. -/
def basename (p : String) : String :=
  let l := p.toList.reverse.dropWhile (fun c => c = '/')
  String.mk ((l.takeWhile (fun c => c ≠ '/')).reverse)

/-! ## The walker of `listDirectory.ts` (`listDirectoryRecursive`) -/

/-- The per-entry record built by the walkers (`FileInfo` in the source,
the spec's `Entry`).  `ftype` is the source's `type` field; `size` is 0
for directories (the walker copies `stats.size`, whose value for a
directory is filesystem-dependent; 0 is the spec's convention). -/
structure FileInfo where
  name : String := ""
  path : String := ""
  parent : String := ""
  ftype : String := "file"
  size : Int := 0
  mtime : Int := 0
  depth : Nat := 0
  hasSubDirs : Bool := false
deriving DecidableEq, Repr

/-- The `FileInfo` record `listDirectoryRecursive` builds for one entry. -/
def mkFileInfo (dirPath name : String) (node : FSNode) (depth : Nat) : FileInfo :=
  match node with
  | .file sz mt =>
    { name := name, path := joinName dirPath name, parent := dirPath,
      ftype := "file", size := sz, mtime := mt, depth := depth, hasSubDirs := false }
  | .dir mt cs =>
    { name := name, path := joinName dirPath name, parent := dirPath,
      ftype := "directory", size := 0, mtime := mt, depth := depth,
      hasSubDirs := childrenHasDir cs }

/-- `listDirectoryRecursive`: depth-first walk from depth 1, emitting each
entry before its subtree, filtering by the show flags, suppressing
non-leaf directories when `onlyLeafDirs`, and recursing only while
`currentDepth < Math.min(maxDepth, 9)`.  (Permission errors, which the
source swallows, do not arise in the tree model.) -/
def walkChildren (showFiles showDirectories onlyLeafDirs : Bool) (maxDepth : Nat)
    (dirPath : String) (currentDepth : Nat) : FSChildren → List FileInfo
  | .nil => []
  | .cons name node rest =>
    if currentDepth > min maxDepth 9 then []
    else
      let fi := mkFileInfo dirPath name node currentDepth
      let emitted :=
        match node with
        | .file _ _ => if showFiles then [fi] else []
        | .dir _ cs =>
          if showDirectories && (!onlyLeafDirs || !childrenHasDir cs) then [fi] else []
      let recursed :=
        match node with
        | .file _ _ => []
        | .dir _ cs =>
          if currentDepth < min maxDepth 9 then
            walkChildren showFiles showDirectories onlyLeafDirs maxDepth
              (joinName dirPath name) (currentDepth + 1) cs
          else []
      emitted ++ recursed ++
        walkChildren showFiles showDirectories onlyLeafDirs maxDepth dirPath currentDepth rest

/-- The entry-collection phase of `listDirectory`: the `maxDepth` option is
clamped to `[1, 9]` (`Math.min(Math.max(maxDepth, 1), 9)`) and the walk
starts at the root's children with depth 1. -/
def listDirectoryEntries (showFiles showDirectories onlyLeafDirs : Bool)
    (maxDepth : Nat) (dirPath : String) (root : FSChildren) : List FileInfo :=
  walkChildren showFiles showDirectories onlyLeafDirs (min (max maxDepth 1) 9) dirPath 1 root

/-! ## Filtering and sorting (`listDirectory.ts` lines 311-346, `findFiles.ts`)

`new RegExp(pattern)` and `regex.test(name)` belong to the JavaScript
regex engine, which is external to the repository; it is modelled by an
oracle `RegexOracle`: `compile pat` is `none` when `new RegExp(pat)`
would throw (syntactically invalid pattern) and `some test` otherwise.
`String.localeCompare` is modelled as the sign of lexicographic
comparison (`strCmp`), its behaviour in the default locale on the ASCII
names exercised here. -/

def RegexOracle : Type := String → Option (String → Bool)

/-- The include-filter stage of `listDirectory` (lines 312-316): the
`new RegExp(filter)` construction is NOT wrapped in try/catch, so an
invalid pattern propagates as an exception. -/
def applyIncludeListDirectory (compile : RegexOracle) (filter : String)
    (results : List FileInfo) : Except String (List FileInfo) :=
  if filter = "" then Except.ok results
  else
    match compile filter with
    | none => Except.error "Invalid regular expression"
    | some rx => Except.ok (results.filter fun fi => rx fi.name)

/-- The exclude-filter stage of `listDirectory` (lines 319-327): here the
construction IS wrapped in try/catch and an invalid pattern is ignored. -/
def applyExcludeListDirectory (compile : RegexOracle) (pat : String)
    (results : List FileInfo) : List FileInfo :=
  if pat = "" then results
  else
    match compile pat with
    | none => results
    | some rx => results.filter fun fi => !rx fi.name

/-- The per-entry filter of `findFiles` (lines 179-201): both the include
and the exclude pattern are compiled inside try/catch; on an invalid
pattern the `continue` is never reached and the entry is kept. -/
def findFilesKeep (compile : RegexOracle) (filter excludePattern name : String) : Bool :=
  let keepInclude :=
    if filter = "" then true
    else
      match compile filter with
      | none => true
      | some rx => rx name
  if !keepInclude then false
  else if excludePattern = "" then true
  else
    match compile excludePattern with
    | none => true
    | some rx => !rx name

/-- `findFiles` applies its per-entry filter to every parsed record. -/
def findFilesApplyFilters (compile : RegexOracle) (filter excludePattern : String)
    (entries : List FileInfo) : List FileInfo :=
  entries.filter fun fi => findFilesKeep compile filter excludePattern fi.name

/-- Lexicographic comparison of code-point sequences, the order model
for `a.localeCompare(b)` (whose sign on the ASCII names exercised here
coincides with code-point order). -/
def charListLt : List Char → List Char → Bool
  | [], [] => false
  | [], _ :: _ => true
  | _ :: _, [] => false
  | a :: as, b :: bs =>
    if a.toNat < b.toNat then true
    else if b.toNat < a.toNat then false
    else charListLt as bs

/-- Lexicographic `≤` on strings (the reflexive closure of `charListLt`). -/
def lexLe (a b : String) : Prop := charListLt b.toList a.toList = false

/-- Sign model of `a.localeCompare(b)`. -/
def strCmp (a b : String) : Int :=
  if charListLt a.toList b.toList then -1
  else if charListLt b.toList a.toList then 1 else 0

/-- `sortDirection === 'asc' ? comparison : -comparison`. -/
def applyDirection (sortDirection : String) (c : Int) : Int :=
  if sortDirection = "asc" then c else -c

/-- The comparator of `listDirectory` (lines 330-346).  Note the `mtime`
key compares `b.mtime - a.mtime` (reversed), and an unknown key returns
0 before the direction is applied. -/
def listDirCmp (sortBy sortDirection : String) (a b : FileInfo) : Int :=
  match sortBy with
  | "name" => applyDirection sortDirection (strCmp a.name b.name)
  | "mtime" => applyDirection sortDirection (b.mtime - a.mtime)
  | "type" => applyDirection sortDirection (strCmp a.ftype b.ftype)
  | _ => 0

/-- The comparator of `findFiles` (lines 207-236); its `mtime` key is
`a.mtime - b.mtime` (chronological). -/
def findFilesCmp (sortBy sortDirection : String) (a b : FileInfo) : Int :=
  match sortBy with
  | "name" => applyDirection sortDirection (strCmp a.name b.name)
  | "mtime" => applyDirection sortDirection (a.mtime - b.mtime)
  | "type" => applyDirection sortDirection (strCmp a.ftype b.ftype)
  | "size" => applyDirection sortDirection (a.size - b.size)
  | "depth" => applyDirection sortDirection ((a.depth : Int) - b.depth)
  | "path" => applyDirection sortDirection (strCmp a.path b.path)
  | "parent" => applyDirection sortDirection (strCmp a.parent b.parent)
  | _ => 0

/-- `Array.prototype.sort` with a consistent comparator: a stable sort
placing `a` before `b` when `cmp a b ≤ 0`.  (ECMAScript sorts are stable;
any stable sort agrees with this insertion sort on a consistent
comparator.) -/
def jsStableSort (cmp : FileInfo → FileInfo → Int) (l : List FileInfo) : List FileInfo :=
  List.insertionSort (fun a b => cmp a b ≤ 0) l

/-- The sort stage of `listDirectory`. -/
def sortListDirectory (sortBy sortDirection : String) (l : List FileInfo) : List FileInfo :=
  jsStableSort (listDirCmp sortBy sortDirection) l

/-- The sort stage of `findFiles`. -/
def sortFindFiles (sortBy sortDirection : String) (l : List FileInfo) : List FileInfo :=
  jsStableSort (findFilesCmp sortBy sortDirection) l

/-- The whole post-walk pipeline of `listDirectory` (lines 298-349):
include filter (throwing on an invalid pattern), exclude filter, sort,
`slice(0, maxRecords)`.  The `returnSingleObject` projection is omitted:
it only reshapes this list. -/
def listDirectoryModel (compile : RegexOracle)
    (dirPath sortBy sortDirection filter excludePattern : String)
    (showFiles showDirectories : Bool) (maxDepth : Nat) (onlyLeafDirs : Bool)
    (maxRecords : Nat) (root : FSChildren) : Except String (List FileInfo) := do
  let results := listDirectoryEntries showFiles showDirectories onlyLeafDirs
    maxDepth dirPath root
  let filtered ← applyIncludeListDirectory compile filter results
  let filtered := applyExcludeListDirectory compile excludePattern filtered
  pure ((sortListDirectory sortBy sortDirection filtered).take maxRecords)

/-! ## `deleteFiles` (`FsOperate/openrations/moveFiles.ts` lines 168-302) -/

/-- The non-shell per-entry recursion of `deleteFiles` (`processDirectory`,
lines 274-297).  For each entry of the captured `readdir` listing:
directories are first recursed into (when `recursive`), then removed
recursively when `includeSubdirectories` and the pattern matches; files
are unlinked when `includeFiles` and the pattern matches.  `rx = none`
models the absence of a pattern (`!regex` matches everything).  Every
`fs` mutation is guarded by `stageTest` exactly as in the source; the
reported paths are pushed in both modes. -/
def delGo (stageTest recursive includeSubdirectories includeFiles : Bool)
    (rx : Option (String → Bool)) (cur : String) :
    FSChildren → FSChildren × List String
  | .nil => (.nil, [])
  | .cons name node rest =>
    let fullPath := joinName cur name
    let matched := match rx with | none => true | some f => f name
    match node with
    | .file sz mt =>
      let r := delGo stageTest recursive includeSubdirectories includeFiles rx cur rest
      if includeFiles && matched then
        ((if stageTest then .cons name (.file sz mt) r.1 else r.1), fullPath :: r.2)
      else (.cons name (.file sz mt) r.1, r.2)
    | .dir mt cs =>
      let rc :=
        if recursive then delGo stageTest recursive includeSubdirectories includeFiles rx fullPath cs
        else (cs, [])
      let r := delGo stageTest recursive includeSubdirectories includeFiles rx cur rest
      if includeSubdirectories && matched then
        ((if stageTest then .cons name (.dir mt rc.1) r.1 else r.1), rc.2 ++ fullPath :: r.2)
      else (.cons name (.dir mt rc.1) r.1, rc.2 ++ r.2)

/-- Split at commas (for the extension lists). -/
def splitCommaGo (cur : List Char) : List Char → List String
  | [] => [String.mk cur.reverse]
  | c :: cs =>
    if c = ',' then String.mk cur.reverse :: splitCommaGo [] cs
    else splitCommaGo (c :: cur) cs

/-- Does the string begin with a dot? -/
def headIsDot (s : String) : Bool :=
  match s.toList with
  | '.' :: _ => true
  | _ => false

/-- `processFileExtensions` of `deleteFiles`: split each entry at commas,
trim, and prepend a dot when missing (no empty-filtering in this variant). -/
def processFileExtensions (exts : List String) : List String :=
  (exts.map fun e =>
    (splitCommaGo [] e.toList).map fun s =>
      let t := String.mk (jsTrim s.toList)
      if headIsDot t then t else "." ++ t).flatten

/-- `find -name "*${ext}"`: the name ends with the extension string. -/
def nameEndsWithAny (exts : List String) (name : String) : Bool :=
  exts.any fun e => e.toList.isSuffixOf name.toList

/-- The candidate list printed by
`find dir [-maxdepth 1] -type f ( -name "*e1" -o … )`:
files (at any depth when `recursive`, else direct children only) whose
name ends in one of the extensions, in pre-order. -/
def findByExt (exts : List String) (recursive : Bool) (cur : String) :
    FSChildren → List String
  | .nil => []
  | .cons name node rest =>
    match node with
    | .file _ _ =>
      (if nameEndsWithAny exts name then [joinName cur name] else []) ++
        findByExt exts recursive cur rest
    | .dir _ cs =>
      (if recursive then findByExt exts recursive (joinName cur name) cs else []) ++
        findByExt exts recursive cur rest

/-- The effect of `find … -exec rm -f {} \;` on those candidates. -/
def removeByExt (exts : List String) (recursive : Bool) :
    FSChildren → FSChildren
  | .nil => .nil
  | .cons name node rest =>
    match node with
    | .file sz mt =>
      if nameEndsWithAny exts name then removeByExt exts recursive rest
      else .cons name (.file sz mt) (removeByExt exts recursive rest)
    | .dir mt cs =>
      .cons name (.dir mt (if recursive then removeByExt exts recursive cs else cs))
        (removeByExt exts recursive rest)

/-- The shell-accelerated extension branch of `deleteFiles` (lines
212-216, 243-248): in `stageTest` mode the command ends in `-print` and
the stdout lines (the candidates) are pushed; in live mode the files are
removed and only `dirPath` is pushed. -/
def deleteFilesShellByExt (stageTest recursive : Bool) (exts : List String)
    (dirPath : String) (root : FSChildren) : FSChildren × List String :=
  if stageTest then (root, findByExt exts recursive dirPath root)
  else (removeByExt exts recursive root, [dirPath])

/-- `convertToShellRegex` step 1 (`lib/utils.ts` lines 225-237): escape
shell-special characters, except inside a character class (more `[` than
`]` seen so far), where only `[` and `]` are escaped. -/
def isShellSpecialChar (c : Char) : Bool :=
  c = '.' || c = '*' || c = '+' || c = '?' || c = '^' || c = '$' ||
  c = '\x7b' || c = '\x7d' || c = '(' || c = ')' || c = '|' || c = '[' ||
  c = ']' || c = '\\'

/-- Escape pass of `convertToShellRegex` (bracket counts are over the
prefix before the current character, as in the source). -/
def escapeShellSpecials (openB closeB : Nat) : List Char → List Char
  | [] => []
  | c :: cs =>
    let inClass := openB > closeB
    let keepRaw := inClass && c ≠ '[' && c ≠ ']'
    let emitted := if isShellSpecialChar c && !keepRaw then ['\\', c] else [c]
    emitted ++ escapeShellSpecials (openB + (if c = '[' then 1 else 0))
      (closeB + (if c = ']' then 1 else 0)) cs

/-- The `\d`/`\w`/`\s`/`\b`/`\B`/`\n`/`\r`/`\t` rewrites of
`convertToShellRegex` (lines 240-248). -/
def pairRule (c : Char) : Option (List Char) :=
  if c = 'd' then some "[0-9]".toList
  else if c = 'w' then some "[a-zA-Z0-9_]".toList
  else if c = 's' then some ("[ \t\n\r".toList ++ [Char.ofNat 0x0C, Char.ofNat 0x0B, ']'])
  else if c = 'b' then some ['\\', '<']
  else if c = 'B' then some ['\\', '>']
  else if c = 'n' then some ['\n']
  else if c = 'r' then some ['\r']
  else if c = 't' then some ['\t']
  else none

/-- One left-to-right pass applying the pair rewrites; equivalent to the
source's chain of `.replace` calls because no replacement emits a
backslash-letter pair. -/
def applyPairRules : List Char → List Char
  | [] => []
  | [c] => [c]
  | a :: b :: rest =>
    if a = '\\' then
      match pairRule b with
      | some repl => repl ++ applyPairRules rest
      | none => a :: applyPairRules (b :: rest)
    else a :: applyPairRules (b :: rest)

/-- `convertToShellRegex` of `lib/utils.ts`. -/
def convertToShellRegex (pattern : String) : String :=
  String.mk (applyPairRules (escapeShellSpecials 0 0 pattern.toList))

/-- The `-type` filter of the shell pattern branch: an empty
`typeOption` (both flags, or neither flag) matches files and directories. -/
def shellAllowFiles (includeFiles includeSubdirectories : Bool) : Bool :=
  includeFiles || (!includeFiles && !includeSubdirectories)

/-- See `shellAllowFiles`. -/
def shellAllowDirs (includeFiles includeSubdirectories : Bool) : Bool :=
  includeSubdirectories || (!includeFiles && !includeSubdirectories)

/-- Candidates printed by `find dir [-maxdepth 1] [-type f|d] -regex P`:
`find` visits the root itself first, then each entry before its subtree.
`posixMatch` is the external POSIX regex matcher of `find` (it tests the
full path), modelled as an oracle parameter. -/
def findByRegexGo (posixMatch : String → String → Bool) (pat : String)
    (allowFiles allowDirs recursive : Bool) (cur : String) :
    FSChildren → List String
  | .nil => []
  | .cons name node rest =>
    let fp := joinName cur name
    match node with
    | .file _ _ =>
      (if allowFiles && posixMatch pat fp then [fp] else []) ++
        findByRegexGo posixMatch pat allowFiles allowDirs recursive cur rest
    | .dir _ cs =>
      (if allowDirs && posixMatch pat fp then [fp] else []) ++
        (if recursive then findByRegexGo posixMatch pat allowFiles allowDirs recursive fp cs
         else []) ++
        findByRegexGo posixMatch pat allowFiles allowDirs recursive cur rest

/-- Effect of `-exec rm -rf {} \;` for the pattern branch on the entries
below the root: each matched entry is removed with its subtree.  (In live
mode `find` may additionally report an error after deleting a directory
it was about to descend into; the model keeps the removal effect.) -/
def removeByRegexGo (posixMatch : String → String → Bool) (pat : String)
    (allowFiles allowDirs recursive : Bool) (cur : String) :
    FSChildren → FSChildren
  | .nil => .nil
  | .cons name node rest =>
    let fp := joinName cur name
    match node with
    | .file sz mt =>
      if allowFiles && posixMatch pat fp then
        removeByRegexGo posixMatch pat allowFiles allowDirs recursive cur rest
      else .cons name (.file sz mt)
        (removeByRegexGo posixMatch pat allowFiles allowDirs recursive cur rest)
    | .dir mt cs =>
      if allowDirs && posixMatch pat fp then
        removeByRegexGo posixMatch pat allowFiles allowDirs recursive cur rest
      else .cons name (.dir mt
          (if recursive then removeByRegexGo posixMatch pat allowFiles allowDirs recursive fp cs
           else cs))
        (removeByRegexGo posixMatch pat allowFiles allowDirs recursive cur rest)

/-- Pre-order listing of every path strictly below the root
(`find dir -mindepth 1 -print`). -/
def listAllPaths (cur : String) : FSChildren → List String
  | .nil => []
  | .cons name node rest =>
    let fp := joinName cur name
    match node with
    | .file _ _ => fp :: listAllPaths cur rest
    | .dir _ cs => fp :: (listAllPaths fp cs ++ listAllPaths cur rest)

/-- `find dir -maxdepth 1 -type f -print`: top-level files. -/
def topLevelFiles (cur : String) : FSChildren → List String
  | .nil => []
  | .cons name node rest =>
    match node with
    | .file _ _ => joinName cur name :: topLevelFiles cur rest
    | .dir _ _ => topLevelFiles cur rest

/-- `rm -f "dir"/*`: removes the top-level files (directory operands fail). -/
def removeTopFiles : FSChildren → FSChildren
  | .nil => .nil
  | .cons _ (.file _ _) rest => removeTopFiles rest
  | .cons name (.dir mt cs) rest => .cons name (.dir mt cs) (removeTopFiles rest)

/-- Options of `deleteFiles` (`DeleteFilesOptions` of the source; the
optional fields default as at the use sites). -/
structure DeleteFilesOptions where
  dirPath : String
  pattern : String := ""
  recursive : Bool := false
  includeFiles : Bool := true
  includeSubdirectories : Bool := false
  deleteRootDir : Bool := false
  useShell : Bool := false
  fileExtensions : List String := []
  protectionConfig : DirectoryProtectionConfig := {}
  stageTest : Bool := false

/-- `deleteFiles` of `FsOperate/openrations/moveFiles.ts` on a directory
root.  The state is the root's entry list; the result state is `none`
when the root directory itself was removed.  `compile` models
`new RegExp`, `posixMatch` the shell's `find -regex` engine.  The
single-file branches (`statSync(dirPath).isFile()`) do not arise for a
directory root. -/
def deleteFilesModel (compile : RegexOracle) (posixMatch : String → String → Bool)
    (opts : DeleteFilesOptions) (root : FSChildren) :
    Except String (Option FSChildren × List String) := do
  let _ ← checkDirectorySafety opts.dirPath opts.protectionConfig
  if opts.deleteRootDir then
    pure ((if opts.stageTest then some root else none), [opts.dirPath])
  else if opts.useShell then
    if opts.fileExtensions ≠ [] then
      let exts := processFileExtensions opts.fileExtensions
      let (st, deleted) := deleteFilesShellByExt opts.stageTest opts.recursive exts
        opts.dirPath root
      pure (some st, deleted)
    else if opts.pattern ≠ "" then
      let shellPattern := convertToShellRegex opts.pattern
      let aF := shellAllowFiles opts.includeFiles opts.includeSubdirectories
      let aD := shellAllowDirs opts.includeFiles opts.includeSubdirectories
      if opts.stageTest then
        let rootHit := if aD && posixMatch shellPattern opts.dirPath then [opts.dirPath] else []
        pure (some root,
          rootHit ++ findByRegexGo posixMatch shellPattern aF aD opts.recursive opts.dirPath root)
      else
        if aD && posixMatch shellPattern opts.dirPath then
          pure (none, [opts.dirPath])
        else
          pure (some (removeByRegexGo posixMatch shellPattern aF aD opts.recursive
            opts.dirPath root), [opts.dirPath])
    else if opts.recursive && opts.includeSubdirectories then
      if opts.stageTest then pure (some root, listAllPaths opts.dirPath root)
      else pure (some .nil, [opts.dirPath])
    else
      if opts.stageTest then pure (some root, topLevelFiles opts.dirPath root)
      else if childrenHasDir root then
        Except.error "Shell command failed"
      else pure (some (removeTopFiles root), [opts.dirPath])
  else
    let rx : Option (String → Bool) ←
      (if opts.pattern = "" then pure none
       else
         match compile opts.pattern with
         | none => Except.error "Invalid regular expression"
         | some f => pure (some f))
    let (st, deleted) := delGo opts.stageTest opts.recursive opts.includeSubdirectories
      opts.includeFiles rx opts.dirPath root
    pure (some st, deleted)

/-! ## `moveFiles` (`FsOperate/openrations/moveFiles.ts` lines 5-115) -/

/-- The per-entry recursion of `moveFiles` (`processDirectory`, lines
18-54) on the source subtree.  A matched entry is renamed below the
target directory; the state tracks the source subtree, so a move is a
removal here (the target directory lies outside the modelled subtree;
when it is placed inside the source tree, the real traversal can
additionally revisit relocated entries).  Mutations are gated on
`stageTest` exactly as in the source; the `moved` paths are pushed in
both modes. -/
def moveGo (stageTest recursive includeFiles : Bool) (rx : String → Bool)
    (cur : String) : FSChildren → FSChildren × List String
  | .nil => (.nil, [])
  | .cons name node rest =>
    let fullPath := joinName cur name
    match node with
    | .file sz mt =>
      let r := moveGo stageTest recursive includeFiles rx cur rest
      if includeFiles && rx name then
        ((if stageTest then .cons name (.file sz mt) r.1 else r.1), fullPath :: r.2)
      else (.cons name (.file sz mt) r.1, r.2)
    | .dir mt cs =>
      let rc :=
        if recursive then moveGo stageTest recursive includeFiles rx fullPath cs
        else (cs, [])
      let r := moveGo stageTest recursive includeFiles rx cur rest
      if rx name then
        ((if stageTest then .cons name (.dir mt rc.1) r.1 else r.1), rc.2 ++ fullPath :: r.2)
      else (.cons name (.dir mt rc.1) r.1, rc.2 ++ r.2)

/-- Options of `moveFiles` (`MoveFilesOptions` of the source). -/
structure MoveFilesOptions where
  sourcePath : String
  targetDir : String
  pattern : String := ""
  recursive : Bool := false
  includeFiles : Bool := true
  renameOnly : Bool := false
  protectionConfig : DirectoryProtectionConfig := {}
  stageTest : Bool := false

/-- `moveFiles` of `FsOperate/openrations/moveFiles.ts`: safety checks on
source and target, regex construction (an empty or absent pattern
matches everything), then the file / directory / rename-only branches.
The state is the source node; `none` means the source itself was moved
away.  The `mkdir` of the target directory happens outside the modelled
subtree. -/
def moveFilesModel (compile : RegexOracle) (opts : MoveFilesOptions)
    (source : FSNode) : Except String (Option FSNode × List String) := do
  let _ ← checkDirectorySafety opts.sourcePath opts.protectionConfig
  let _ ← checkDirectorySafety opts.targetDir opts.protectionConfig
  let rx : String → Bool ←
    (if opts.pattern = "" then pure (fun _ => true)
     else
       match compile opts.pattern with
       | none => Except.error "Invalid regular expression"
       | some f => pure f)
  match source with
  | .file sz mt =>
    if opts.renameOnly then
      pure ((if opts.stageTest then some (.file sz mt) else none), [opts.sourcePath])
    else if opts.includeFiles && rx (basename opts.sourcePath) then
      pure ((if opts.stageTest then some (.file sz mt) else none), [opts.sourcePath])
    else pure (some (.file sz mt), [])
  | .dir mt cs =>
    if opts.renameOnly then
      pure ((if opts.stageTest then some (.dir mt cs) else none), [opts.sourcePath])
    else
      let (cs2, moved) := moveGo opts.stageTest opts.recursive opts.includeFiles rx
        opts.sourcePath cs
      pure (some (.dir mt cs2), moved)

/-! ## `fixFileNames` fallback (`fixFileNames.ts` lines 110-188)

`flattenDirectory` first runs `fixFileNames(dirPath, true, true)`.  Its
primary path shells out to `iconv` (an identity re-encoding for valid
UTF-8 names); the Node fallback below renames every entry whose
`sanitizeFileName` differs, adding a timestamp suffix on a collision.
The model embeds the fallback (the pure variant); `ts` stands for
`new Date().getTime()`. -/

/-- `${baseName}_${timestamp}${ext}` with `ext = extname(newName)`. -/
def timestampName (newName ts : String) : String :=
  let l := newName.toList
  let el := extnameLen l
  String.mk (l.take (l.length - el) ++ ('_' :: ts.toList) ++ l.drop (l.length - el))

/-- Is the node a file? -/
def isFileNode : FSNode → Bool
  | .file _ _ => true
  | .dir _ _ => false

/-- The per-directory loop of `fixFileNamesFallback`: entries are
processed in `readdir` order; `done` holds the (final) names of the
already-processed siblings, against which, together with the unprocessed
siblings, the `fs.access` collision check runs.  A renamed entry keeps
its position; recursion descends into the (possibly renamed) directory
before the next sibling is processed. -/
def fixChildren (recursive onlyDirectories : Bool) (ts : String) :
    (done : List String) → FSChildren → FSChildren
  | _, .nil => .nil
  | done, .cons n node rest =>
    if onlyDirectories && isFileNode node then
      .cons n node (fixChildren recursive onlyDirectories ts (done ++ [n]) rest)
    else
      let newName := sanitizeFileName n
      let finalName :=
        if newName = n then n
        else if done.contains newName || (childNames rest).contains newName then
          timestampName newName ts
        else newName
      let node2 :=
        match node with
        | .file sz mt => FSNode.file sz mt
        | .dir mt cs =>
          FSNode.dir mt (if recursive then fixChildren recursive onlyDirectories ts [] cs else cs)
      .cons finalName node2
        (fixChildren recursive onlyDirectories ts (done ++ [finalName]) rest)

/-! ## `flattenDirectory` (`flattenDirectory.ts`) -/

/-- File-collection phase below the root (`processFiles` on a
subdirectory): every file is moved out (to the root), in iteration order,
directories being recursed into in place. -/
def drainFilesAll : FSChildren → FSChildren × List (String × FSNode)
  | .nil => (.nil, [])
  | .cons n node rest =>
    match node with
    | .file sz mt =>
      let (r, l) := drainFilesAll rest
      (r, (n, FSNode.file sz mt) :: l)
    | .dir mt cs =>
      let (cs2, l1) := drainFilesAll cs
      let (r, l2) := drainFilesAll rest
      (.cons n (.dir mt cs2) r, l1 ++ l2)

/-- `processFiles(dirPath)` at the root: files directly in the root are
skipped (`dir !== dirPath`), subdirectories are drained. -/
def drainFilesRoot : FSChildren → FSChildren × List (String × FSNode)
  | .nil => (.nil, [])
  | .cons n node rest =>
    match node with
    | .file sz mt =>
      let (r, l) := drainFilesRoot rest
      (.cons n (.file sz mt) r, l)
    | .dir mt cs =>
      let (cs2, l1) := drainFilesAll cs
      let (r, l2) := drainFilesRoot rest
      (.cons n (.dir mt cs2) r, l1 ++ l2)

/-- Number of entries in a directory. -/
def childLen : FSChildren → Nat
  | .nil => 0
  | .cons _ _ rest => 1 + childLen rest

/-- The collision loop of `processFiles`: try
`${basename}_${counter}${ext}` with `counter = 1, 2, …` until the name is
free in the root.  The fuel (entry count + 1) always suffices: the
candidates are pairwise distinct and at most `childLen root` names are
taken. -/
def freshNameGo (root : FSChildren) (base ext : List Char) :
    (counter fuel : Nat) → String
  | counter, 0 => String.mk (base ++ ('_' :: (toString counter).toList) ++ ext)
  | counter, fuel + 1 =>
    let cand := String.mk (base ++ ('_' :: (toString counter).toList) ++ ext)
    if hasChild root cand then freshNameGo root base ext (counter + 1) fuel else cand

/-- First free name for a file moved into the root: the plain name, then
the `_counter` variants (`ext = extname(item.name)`). -/
def freshName (root : FSChildren) (name : String) : String :=
  if hasChild root name then
    let l := name.toList
    let el := extnameLen l
    freshNameGo root (l.take (l.length - el)) (l.drop (l.length - el)) 1 (childLen root + 1)
  else name

/-- Move the collected files into the root, in collection order, each
under its first free name; `fs.rename` creates the new entry (appended
at the end of the listing in this model). -/
def insertMoved : FSChildren → List (String × FSNode) → FSChildren
  | root, [] => root
  | root, (n, node) :: rest => insertMoved (appendChild root (freshName root n) node) rest

/-- `removeEmptyDirs`: children first, then each now-empty subdirectory
is removed (the root itself never is). -/
def removeEmptyGo : FSChildren → FSChildren
  | .nil => .nil
  | .cons n node rest =>
    match node with
    | .file sz mt => .cons n (.file sz mt) (removeEmptyGo rest)
    | .dir mt cs =>
      let cs2 := removeEmptyGo cs
      if isNilChildren cs2 then removeEmptyGo rest
      else .cons n (.dir mt cs2) (removeEmptyGo rest)

/-- `flattenDirectory` of `flattenDirectory.ts`: safety check, tree-wide
directory-name fixing, relocation of every file below the root directly
into the root (numeric-suffix collision resolution), bottom-up removal of
now-empty subdirectories.  The state is the root's entry list. -/
def flattenDirectoryModel (dirPath : String)
    (protectionConfig : DirectoryProtectionConfig) (ts : String)
    (root : FSChildren) : Except String FSChildren := do
  let _ ← checkDirectorySafety dirPath protectionConfig
  let r1 := fixChildren true true ts [] root
  let (r2, moved) := drainFilesRoot r1
  let r3 := insertMoved r2 moved
  pure (removeEmptyGo r3)

/-! ## `cleanEmptyDirectories` (`cleanEmptyDirectories.ts`) -/

/-- The per-directory loop of `cleanEmptyDirectories`: for each
subdirectory, recurse when `recursive` (the recursive call re-runs
`checkDirectorySafety` on the subdirectory path and can thus fail), then
remove it if it is (now) empty. -/
def cleanChildren (recursive : Bool) (cfg : DirectoryProtectionConfig)
    (cur : String) : FSChildren → Except String FSChildren
  | .nil => pure .nil
  | .cons n node rest => do
    match node with
    | .file sz mt => do
      let rest2 ← cleanChildren recursive cfg cur rest
      pure (.cons n (.file sz mt) rest2)
    | .dir mt cs => do
      let fullPath := joinName cur n
      let cs2 ←
        if recursive then do
          let _ ← checkDirectorySafety fullPath cfg
          cleanChildren recursive cfg fullPath cs
        else pure cs
      let rest2 ← cleanChildren recursive cfg cur rest
      if isNilChildren cs2 then pure rest2
      else pure (.cons n (.dir mt cs2) rest2)

/-- `cleanEmptyDirectories`: safety check on the root first, then the
recursive cleanup. -/
def cleanEmptyDirectoriesModel (dirPath : String) (recursive : Bool)
    (cfg : DirectoryProtectionConfig) (root : FSChildren) :
    Except String FSChildren := do
  let _ ← checkDirectorySafety dirPath cfg
  if dirPath = "" then Except.error "Directory path cannot be empty"
  else cleanChildren recursive cfg dirPath root

/-! ## `rename` (`FsUtils/operations/rename.ts`) -/

/-- Filesystem side effects, for operations whose targets lie outside a
single modelled subtree. -/
inductive FsEvent where
  | checkSafetyEv (p : String)
  | mkdirEv (p : String)
  | renameEv (src dst : String)
deriving DecidableEq, Repr

/-- The event trace of `rename`: ensure the target's parent directory
exists, then a single `fs.rename` to the (possibly pattern-rewritten)
target.  `rxTest`/`rxReplace` model `new RegExp(pattern).test` and
`fileName.replace(regex, replacement)`.  The file and directory branches
build the same trace (both apply the pattern to the SOURCE basename).
No `checkSafetyEv` occurs anywhere: `rename.ts` never consults
`directoryProtection`. -/
def renameEvents (sourcePath targetPath pattern replacement : String)
    (rxTest : String → Bool) (rxReplace : String → String)
    (isFile : Bool) : List FsEvent :=
  let finalTargetPath :=
    if pattern ≠ "" && replacement ≠ "" then
      let nm := basename sourcePath
      if rxTest nm then pathJoin (dirname targetPath) (rxReplace nm)
      else targetPath
    else targetPath
  if isFile then
    [FsEvent.mkdirEv (dirname targetPath), FsEvent.renameEv sourcePath finalTargetPath]
  else
    [FsEvent.mkdirEv (dirname targetPath), FsEvent.renameEv sourcePath finalTargetPath]

/-! ## Fixtures and oracles used by the concrete theorems -/

/-- A regex oracle that fails to compile the single pattern `"("`
(a syntactically invalid JavaScript regex) and compiles everything else
to a match-all test. -/
def badParenOracle : RegexOracle :=
  fun s => if s = "(" then none else some (fun _ => true)

/-- A fixture entry list. -/
def entryA : FileInfo :=
  { name := "a.txt", path := "/data/media/test/a.txt",
    parent := "/data/media/test", ftype := "file", size := 1, mtime := 100, depth := 1 }

/-- A fixture entry (same name as `entryB2`, different path). -/
def entryB1 : FileInfo :=
  { name := "b.txt", path := "/data/media/test/b.txt",
    parent := "/data/media/test", ftype := "file", size := 2, mtime := 300, depth := 1 }

/-- A fixture entry (same name as `entryB1`, different path). -/
def entryB2 : FileInfo :=
  { name := "b.txt", path := "/data/media/test/d/b.txt",
    parent := "/data/media/test/d", ftype := "file", size := 3, mtime := 200, depth := 2 }

/-- Fixture tree for the flatten claim: `d1/a.txt` and `d2/d3/a.txt`. -/
def flattenFixture : FSChildren :=
  .cons "d1" (.dir 10 (.cons "a.txt" (.file 3 100) .nil))
    (.cons "d2" (.dir 20 (.cons "d3" (.dir 30 (.cons "a.txt" (.file 4 200) .nil)) .nil))
      .nil)

/-- Fixture tree for the shell-delete claim: two `.txt` files and one
`.log` file under the root. -/
def shellFixture : FSChildren :=
  .cons "f1.txt" (.file 1 100)
    (.cons "note.log" (.file 2 200) (.cons "f2.txt" (.file 3 300) .nil))

/-- Fixture tree for the walker claims: three levels of nesting. -/
def walkFixture : FSChildren :=
  .cons "d1" (.dir 10 (.cons "a.txt" (.file 3 100)
      (.cons "d2" (.dir 20 (.cons "b.txt" (.file 4 200) .nil)) .nil)))
    (.cons "c.txt" (.file 5 300) .nil)

/-- A regex oracle that compiles every pattern to a match-all test. -/
def anyOracle : RegexOracle := fun _ => some (fun _ => true)

/-- A `find -regex` oracle that matches nothing (unused branches). -/
def noPosix : String → String → Bool := fun _ _ => false

/-- Options of the shell-delete counterexample: extension-based shell
deletion of `.txt` files under `/data/media/test`. -/
def shellDeleteOpts (stage : Bool) : DeleteFilesOptions :=
  { dirPath := "/data/media/test", recursive := false, useShell := true,
    fileExtensions := ["txt"], stageTest := stage }

end Klib

open Klib

/-- C2: for every path whose segment depth falls below the default
minimum depth or above the default maximum depth, `checkDirectorySafety`
with the default policy throws (and, being a pure function, performs no
filesystem mutation); and every path equal to or under a protected root
is rejected whenever the policy does not set `allowProtectedDirs`. -/
theorem checkDirectorySafety_rejects_bad_depth_and_protected :
    (∀ p : String,
      (pathDepth p < 3 ∨ pathDepth p > 10) →
      ∃ e, checkDirectorySafety p DEFAULT_PROTECTION_CONFIG = Except.error e) ∧
    (∀ (p : String) (cfg : DirectoryProtectionConfig),
      cfg.allowProtectedDirs.getD false = false →
      underProtectedRoot p = true →
      ∃ e, checkDirectorySafety p cfg = Except.error e) := by
  constructor
  · intro p h
    unfold checkDirectorySafety
    by_cases hp : isProtectedDirectory p DEFAULT_PROTECTION_CONFIG
    · exact ⟨"Operation on system directory is not allowed: " ++ p, by simp [hp]⟩
    · refine ⟨"Directory depth out of allowed range", ?_⟩
      simp only [hp, if_false, Bool.false_eq_true]
      have hd : checkDirectoryDepth p DEFAULT_PROTECTION_CONFIG =
          Except.error "Directory depth out of allowed range" := by
        unfold checkDirectoryDepth
        have : (pathDepth p < (3 : Int) || pathDepth p > 10) = true := by
          rcases h with h | h
          · simp [DEFAULT_PROTECTION_CONFIG, h]
          · simp [DEFAULT_PROTECTION_CONFIG, h]
        simp [DEFAULT_PROTECTION_CONFIG] at this ⊢
        omega
      rw [hd]
  · intro p cfg hallow hroot
    refine ⟨"Operation on system directory is not allowed: " ++ p, ?_⟩
    unfold checkDirectorySafety
    have hp : isProtectedDirectory p cfg = true := by
      unfold isProtectedDirectory
      simp [hallow, hroot]
    simp [hp]

/-- Witness for C2 at concrete inputs: `/a` (depth 1) fails the depth
check, and `/etc/x` under the protected root `/etc` is rejected by the
default policy. -/
theorem checkDirectorySafety_rejects_witness :
    (∃ e, checkDirectorySafety "/a" DEFAULT_PROTECTION_CONFIG = Except.error e) ∧
    (∃ e, checkDirectorySafety "/etc/x" DEFAULT_PROTECTION_CONFIG = Except.error e) :=
  ⟨checkDirectorySafety_rejects_bad_depth_and_protected.1 "/a" (by decide),
   checkDirectorySafety_rejects_bad_depth_and_protected.2 "/etc/x"
     DEFAULT_PROTECTION_CONFIG (by decide) (by decide)⟩

/-- C10: `allowProtectedDirs := true` bypasses only the protected-directory
check, never the depth check: a path whose segment depth lies outside
`[minDepth, maxDepth]` is still rejected. -/
theorem allowProtectedDirs_does_not_bypass_depth
    (p : String) (minD maxD : Option Int)
    (h : pathDepth p < minD.getD 3 ∨ pathDepth p > maxD.getD 10) :
    ∃ e, checkDirectorySafety p ⟨minD, maxD, some true⟩ = Except.error e := by
  refine ⟨"Directory depth out of allowed range", ?_⟩
  unfold checkDirectorySafety
  have hp : isProtectedDirectory p ⟨minD, maxD, some true⟩ = false := by
    unfold isProtectedDirectory
    simp
  have hd : checkDirectoryDepth p ⟨minD, maxD, some true⟩ =
      Except.error "Directory depth out of allowed range" := by
    unfold checkDirectoryDepth
    simp only []
    have : (pathDepth p < minD.getD 3 || pathDepth p > maxD.getD 10) = true := by
      rcases h with h | h <;> simp [h]
    simp at this ⊢
    omega
  simp [hp, hd]

/-- Witness for C10: `/etc` has depth 1, below the default minimum of 3,
so it is rejected even with `allowProtectedDirs := true`. -/
theorem allowProtectedDirs_does_not_bypass_depth_witness :
    ∃ e, checkDirectorySafety "/etc" ⟨none, none, some true⟩ = Except.error e :=
  allowProtectedDirs_does_not_bypass_depth "/etc" none none (by decide)

/-! ### Lemmas about the sanitization passes -/

theorem replace_passes_eq_map (l : List Char) :
    replaceIllegalWin (replaceDisallowed l) = l.map sanChar := by
  simp only [replaceIllegalWin, replaceDisallowed, List.map_map]
  rfl

theorem sanChar_good (c : Char) : goodChar (sanChar c) = true := by
  unfold sanChar goodChar
  by_cases ha : isAllowedChar c
  · by_cases hi : isIllegalWinChar c
    · simp [ha, hi]
    · simp [ha, hi]
  · simp [ha]

theorem sanChar_fixes (c : Char) (h : goodChar c = true) : sanChar c = c := by
  unfold goodChar at h
  unfold sanChar
  rcases Bool.or_eq_true_iff.mp h with h1 | h2
  · rcases Bool.and_eq_true_iff.mp h1 with ⟨ha, hi⟩
    simp at hi
    simp [ha, hi]
  · have : c = '_' := by simpa using h2
    subst this
    decide

theorem mem_collapseUnderscores {x : Char} :
    ∀ {l : List Char}, x ∈ collapseUnderscores l → x ∈ l := by
  intro l
  induction l with
  | nil => simp [collapseUnderscores]
  | cons c cs ih =>
    unfold collapseUnderscores
    cases h : collapseUnderscores cs with
    | nil =>
      intro hx
      simp at hx
      simp [hx]
    | cons d ds =>
      by_cases hc : (c = '_' && d = '_') = true
      · simp only [hc, if_true]
        intro hx
        have : x ∈ collapseUnderscores cs := by rw [h]; exact hx
        exact List.mem_cons_of_mem _ (ih this)
      · simp only [hc, if_false]
        intro hx
        rcases List.mem_cons.mp hx with h1 | h1
        · simp [h1]
        · have : x ∈ collapseUnderscores cs := by rw [h]; exact h1
          exact List.mem_cons_of_mem _ (ih this)

theorem collapseUnderscores_chain (l : List Char) :
    List.Chain' (fun a b => ¬(a = '_' ∧ b = '_')) (collapseUnderscores l) := by
  induction l with
  | nil => simp [collapseUnderscores]
  | cons c cs ih =>
    unfold collapseUnderscores
    cases h : collapseUnderscores cs with
    | nil => simp
    | cons d ds =>
      rw [h] at ih
      by_cases hc : (c = '_' && d = '_') = true
      · simp only [hc, if_true]
        exact ih
      · simp only [hc, if_false]
        refine List.Chain'.cons ?_ ih
        intro ⟨h1, h2⟩
        subst h1; subst h2
        simp at hc

theorem collapseUnderscores_of_chain :
    ∀ {l : List Char}, List.Chain' (fun a b => ¬(a = '_' ∧ b = '_')) l →
    collapseUnderscores l = l := by
  intro l
  induction l with
  | nil => intro _; rfl
  | cons c cs ih =>
    intro hch
    unfold collapseUnderscores
    have hcs : List.Chain' (fun a b => ¬(a = '_' ∧ b = '_')) cs := hch.tail
    rw [ih hcs]
    cases cs with
    | nil => rfl
    | cons d ds =>
      have hcd : ¬(c = '_' ∧ d = '_') := List.chain'_cons.mp hch |>.1
      have : (c = '_' && d = '_') = false := by
        by_cases h1 : c = '_'
        · by_cases h2 : d = '_'
          · exact absurd ⟨h1, h2⟩ hcd
          · simp [h1, h2]
        · simp [h1]
      simp [this]

theorem collapseUnderscores_length_le (l : List Char) :
    (collapseUnderscores l).length ≤ l.length := by
  induction l with
  | nil => simp [collapseUnderscores]
  | cons c cs ih =>
    unfold collapseUnderscores
    cases h : collapseUnderscores cs with
    | nil => simp
    | cons d ds =>
      rw [h] at ih
      by_cases hc : (c = '_' && d = '_') = true
      · simp only [hc, if_true]
        calc (d :: ds).length ≤ cs.length := ih
          _ ≤ (c :: cs).length := by simp
      · simp only [hc, if_false]
        simpa using Nat.succ_le_succ ih

theorem sanitizeFileName_unnamed_fix :
    sanitizeFileName "unnamed_file" = "unnamed_file" := by decide

set_option maxRecDepth 8000 in
/-- C5 counterexample: the sanitizer of the fix-names operation is not
idempotent on every input.  On a 302-character name whose extension alone
is 301 characters long, the truncation step of the first application
yields a 301-character result (the base name is cut to the empty string
but the extension is kept whole), which a second application truncates
again, to 255 characters. -/
theorem sanitizeFileName_not_idempotent :
    sanitizeFileName (sanitizeFileName longDotName) ≠ sanitizeFileName longDotName := by
  decide

/-- C5 (amended): `sanitizeFileName` is idempotent on every name of at
most 255 characters, where the truncation branch cannot fire. -/
theorem sanitizeFileName_idempotent_le255 (s : String) (h : s.length ≤ 255) :
    sanitizeFileName (sanitizeFileName s) = sanitizeFileName s := by
  have hmaps : replaceIllegalWin (replaceDisallowed s.toList) = s.toList.map sanChar :=
    replace_passes_eq_map s.toList
  have hlen : (sanitizeCore s.toList).length ≤ 255 := by
    calc (sanitizeCore s.toList).length
        ≤ (replaceIllegalWin (replaceDisallowed s.toList)).length :=
          collapseUnderscores_length_le _
      _ = s.toList.length := by rw [hmaps]; simp
      _ = s.length := rfl
      _ ≤ 255 := h
  set t := sanitizeCore s.toList with ht
  have hgood : ∀ x ∈ t, goodChar x = true := by
    intro x hx
    have hx2 : x ∈ replaceIllegalWin (replaceDisallowed s.toList) :=
      mem_collapseUnderscores hx
    rw [hmaps] at hx2
    rcases List.mem_map.mp hx2 with ⟨c, _, rfl⟩
    exact sanChar_good c
  by_cases hsp : allSpaces t = true
  · have h1 : sanitizeFileName s = "unnamed_file" := by
      unfold sanitizeFileName
      rw [← ht]
      unfold emptyFallback
      rw [hsp, if_pos rfl]
      decide
    rw [h1, sanitizeFileName_unnamed_fix]
  · have hsp' : allSpaces t = false := by
      cases hb : allSpaces t
      · rfl
      · exact absurd hb hsp
    have hntr : capLength t = t := by
      unfold capLength
      rw [if_neg (by omega : ¬ t.length > 255)]
    have hfall : emptyFallback t = t := by
      unfold emptyFallback
      rw [hsp']
      simp
    have h1 : sanitizeFileName s = String.mk t := by
      unfold sanitizeFileName
      rw [← ht, hfall, hntr]
    rw [h1]
    have htl : (String.mk t).toList = t := rfl
    have hfix : t.map sanChar = t := by
      have hpt : ∀ x ∈ t, sanChar x = x := fun x hx => sanChar_fixes x (hgood x hx)
      calc t.map sanChar = t.map id := List.map_congr_left hpt
        _ = t := List.map_id t
    have hcoll : collapseUnderscores t = t :=
      collapseUnderscores_of_chain (ht ▸ collapseUnderscores_chain _)
    have hcore : sanitizeCore t = t := by
      unfold sanitizeCore
      rw [replace_passes_eq_map, hfix, hcoll]
    unfold sanitizeFileName
    rw [htl, hcore, hfall, hntr]

/-- Witness for the amended C5 at a concrete input of length ≤ 255. -/
theorem sanitizeFileName_idempotent_witness :
    ("my file?.txt" : String).length ≤ 255 ∧
    sanitizeFileName (sanitizeFileName "my file?.txt") = sanitizeFileName "my file?.txt" :=
  ⟨by decide, sanitizeFileName_idempotent_le255 "my file?.txt" (by decide)⟩

/-- C6 counterexample: the sanitizer used by the fix-names operation does
not special-case Windows reserved device names: `sanitizeFileName "CON"`
is `"CON"`, not `"_CON"`. -/
theorem sanitizeFileName_CON_unchanged :
    sanitizeFileName "CON" = "CON" ∧ sanitizeFileName "CON" ≠ "_CON" := by
  constructor
  · decide
  · decide

/-- C6 (amended): the `sanitizePath` sanitizer of `lib/utils` prefixes
reserved device names with an underscore and replaces each
Windows-illegal character with an underscore (`sanitizePath "CON" =
"_CON"`, `sanitizePath "a:b*c" = "a_b_c"`); `sanitizeFileName` performs
the same illegal-character substitution (`sanitizeFileName "a:b*c" =
"a_b_c"`) but, per the counterexample, no reserved-name prefixing. -/
theorem sanitize_literal_cases :
    sanitizePath "CON" = "_CON" ∧ sanitizePath "a:b*c" = "a_b_c" ∧
    sanitizeFileName "a:b*c" = "a_b_c" := by
  refine ⟨by decide, by decide, by decide⟩

/-! ### Dry-run lemmas for the bulk mutators -/

theorem delGo_stage_keeps_tree (rec incS incF : Bool) (rx : Option (String → Bool)) :
    ∀ (k : Nat) (cs : FSChildren) (cur : String), childSize cs ≤ k →
      (delGo true rec incS incF rx cur cs).1 = cs := by
  intro k
  induction k with
  | zero =>
    intro cs cur hsz
    cases cs with
    | nil => rfl
    | cons name n rest => simp [childSize] at hsz
  | succ k ih =>
    intro cs cur hsz
    cases cs with
    | nil => rfl
    | cons name n rest =>
      have hszr : childSize rest ≤ k := by
        simp [childSize] at hsz
        omega
      have hrest := ih rest cur hszr
      cases n with
      | file sz mt =>
        simp only [delGo]
        split <;> simp [hrest]
      | dir mt cs2 =>
        have hszc : childSize cs2 ≤ k := by
          simp [childSize, nodeSize] at hsz
          omega
        have hcs2 := ih cs2 (joinName cur name) hszc
        cases rec with
        | true =>
          simp only [delGo]
          split <;> simp [hrest, hcs2]
        | false =>
          simp only [delGo]
          split <;> simp [hrest, hcs2]

theorem delGo_deleted_stage_independent (rec incS incF : Bool)
    (rx : Option (String → Bool)) (b1 b2 : Bool) :
    ∀ (k : Nat) (cs : FSChildren) (cur : String), childSize cs ≤ k →
      (delGo b1 rec incS incF rx cur cs).2 = (delGo b2 rec incS incF rx cur cs).2 := by
  intro k
  induction k with
  | zero =>
    intro cs cur hsz
    cases cs with
    | nil => rfl
    | cons name n rest => simp [childSize] at hsz
  | succ k ih =>
    intro cs cur hsz
    cases cs with
    | nil => rfl
    | cons name n rest =>
      have hszr : childSize rest ≤ k := by
        simp [childSize] at hsz
        omega
      have hrest := ih rest cur hszr
      cases n with
      | file sz mt =>
        simp only [delGo]
        split <;> simp [hrest]
      | dir mt cs2 =>
        have hszc : childSize cs2 ≤ k := by
          simp [childSize, nodeSize] at hsz
          omega
        have hcs2 := ih cs2 (joinName cur name) hszc
        cases rec with
        | true =>
          simp only [delGo]
          split <;> simp [hrest, hcs2]
        | false =>
          simp only [delGo]
          split <;> simp [hrest, hcs2]

theorem moveGo_stage_keeps_tree (rec incF : Bool) (rx : String → Bool) :
    ∀ (k : Nat) (cs : FSChildren) (cur : String), childSize cs ≤ k →
      (moveGo true rec incF rx cur cs).1 = cs := by
  intro k
  induction k with
  | zero =>
    intro cs cur hsz
    cases cs with
    | nil => rfl
    | cons name n rest => simp [childSize] at hsz
  | succ k ih =>
    intro cs cur hsz
    cases cs with
    | nil => rfl
    | cons name n rest =>
      have hszr : childSize rest ≤ k := by
        simp [childSize] at hsz
        omega
      have hrest := ih rest cur hszr
      cases n with
      | file sz mt =>
        simp only [moveGo]
        split <;> simp [hrest]
      | dir mt cs2 =>
        have hszc : childSize cs2 ≤ k := by
          simp [childSize, nodeSize] at hsz
          omega
        have hcs2 := ih cs2 (joinName cur name) hszc
        cases rec with
        | true =>
          simp only [moveGo]
          split <;> simp [hrest, hcs2]
        | false =>
          simp only [moveGo]
          split <;> simp [hrest, hcs2]

theorem moveGo_moved_stage_independent (rec incF : Bool) (rx : String → Bool)
    (b1 b2 : Bool) :
    ∀ (k : Nat) (cs : FSChildren) (cur : String), childSize cs ≤ k →
      (moveGo b1 rec incF rx cur cs).2 = (moveGo b2 rec incF rx cur cs).2 := by
  intro k
  induction k with
  | zero =>
    intro cs cur hsz
    cases cs with
    | nil => rfl
    | cons name n rest => simp [childSize] at hsz
  | succ k ih =>
    intro cs cur hsz
    cases cs with
    | nil => rfl
    | cons name n rest =>
      have hszr : childSize rest ≤ k := by
        simp [childSize] at hsz
        omega
      have hrest := ih rest cur hszr
      cases n with
      | file sz mt =>
        simp only [moveGo]
        split <;> simp [hrest]
      | dir mt cs2 =>
        have hszc : childSize cs2 ≤ k := by
          simp [childSize, nodeSize] at hsz
          omega
        have hcs2 := ih cs2 (joinName cur name) hszc
        cases rec with
        | true =>
          simp only [moveGo]
          split <;> simp [hrest, hcs2]
        | false =>
          simp only [moveGo]
          split <;> simp [hrest, hcs2]

/-- C3 counterexample: the shell-accelerated extension branch of
`deleteFiles` reports different path sets in dry-run and live mode.  On a
root with files `f1.txt`, `note.log`, `f2.txt` and `fileExtensions =
["txt"]`, the dry run (`stageTest`) returns the two candidate `.txt`
paths, while the live run deletes them but reports only the root path. -/
theorem shellDelete_dry_differs_from_live :
    deleteFilesModel anyOracle noPosix (shellDeleteOpts true) shellFixture =
      Except.ok (some shellFixture,
        ["/data/media/test/f1.txt", "/data/media/test/f2.txt"]) ∧
    deleteFilesModel anyOracle noPosix (shellDeleteOpts false) shellFixture =
      Except.ok (some (.cons "note.log" (.file 2 200) .nil), ["/data/media/test"]) ∧
    (["/data/media/test/f1.txt", "/data/media/test/f2.txt"] : List String) ≠
      ["/data/media/test"] := by
  refine ⟨rfl, rfl, by decide⟩

/-- C3 (amended): for the in-process (non-shell) paths of `deleteFiles`
and for `moveFiles`, the dry run performs no mutation (the resulting tree
is the input tree) and reports exactly the path set the live run reports,
because both modes run the same selection logic with only the `fs` calls
gated.  The shell-accelerated delete differs as per the counterexample;
for a move whose target directory is placed inside the source tree, the
live traversal can additionally revisit relocated entries (the model
keeps the target outside the source subtree). -/
theorem dryrun_matches_live_nonshell :
    (∀ (c : RegexOracle) (pm : String → String → Bool) (opts : DeleteFilesOptions)
       (root : FSChildren),
       opts.useShell = false →
       (deleteFilesModel c pm {opts with stageTest := true} root).map Prod.snd =
         (deleteFilesModel c pm {opts with stageTest := false} root).map Prod.snd ∧
       (∀ st del, deleteFilesModel c pm {opts with stageTest := true} root =
          Except.ok (st, del) → st = some root)) ∧
    (∀ (c : RegexOracle) (opts : MoveFilesOptions) (src : FSNode),
       (moveFilesModel c {opts with stageTest := true} src).map Prod.snd =
         (moveFilesModel c {opts with stageTest := false} src).map Prod.snd ∧
       (∀ st mv, moveFilesModel c {opts with stageTest := true} src =
          Except.ok (st, mv) → st = some src)) := by
  constructor
  · intro c pm opts root hsh
    have hdel2 := delGo_deleted_stage_independent opts.recursive opts.includeSubdirectories
      opts.includeFiles
    have hdel1 := delGo_stage_keeps_tree opts.recursive opts.includeSubdirectories
      opts.includeFiles
    simp only [deleteFilesModel, hsh]
    cases hs : checkDirectorySafety opts.dirPath opts.protectionConfig with
    | error e => simp [Except.bind, bind, Except.map]
    | ok u =>
      simp only [Except.bind, bind]
      by_cases hroot : opts.deleteRootDir
      · simp [hroot, Except.map, pure, Except.pure]
      · simp only [hroot, if_false, Bool.false_eq_true]
        by_cases hpat : opts.pattern = ""
        · simp only [hpat, if_pos rfl, if_true]
          constructor
          · simp [Except.map, pure, Except.pure,
              hdel2 none true false (childSize root) root opts.dirPath (le_refl _)]
          · intro st del hok
            simp only [pure, Except.pure, Except.ok.injEq, Prod.mk.injEq] at hok
            have hrw := hdel1 none (childSize root) root opts.dirPath (le_refl _)
            first
            | exact congrArg some hrw
            | simp_all
        · simp only [hpat]
          cases hc : c opts.pattern with
          | none => simp [Except.map]
          | some f =>
            simp only [if_neg hpat]
            constructor
            · simp [Except.map, pure, Except.pure,
                hdel2 (some f) true false (childSize root) root opts.dirPath (le_refl _)]
            · intro st del hok
              simp only [if_neg hpat, pure, Except.pure, Except.ok.injEq, Prod.mk.injEq] at hok
              have hrw := hdel1 (some f) (childSize root) root opts.dirPath (le_refl _)
              first
              | exact congrArg some hrw
              | simp_all
  · intro c opts src
    have hmv2 := moveGo_moved_stage_independent opts.recursive opts.includeFiles
    have hmv1 := moveGo_stage_keeps_tree opts.recursive opts.includeFiles
    simp only [moveFilesModel]
    cases hs : checkDirectorySafety opts.sourcePath opts.protectionConfig with
    | error e => simp [Except.bind, bind, Except.map]
    | ok u =>
      cases ht : checkDirectorySafety opts.targetDir opts.protectionConfig with
      | error e => simp [Except.bind, bind, Except.map]
      | ok v =>
        simp only [Except.bind, bind]
        by_cases hpat : opts.pattern = ""
        · simp only [hpat, if_pos rfl]
          cases src with
          | file sz mt =>
            by_cases hro : opts.renameOnly
            · simp [hro, Except.map, pure, Except.pure]
            · by_cases hif : opts.includeFiles
              · simp [hro, hif, Except.map, pure, Except.pure]
              · simp [hro, hif, Except.map, pure, Except.pure]
          | dir mt cs =>
            by_cases hro : opts.renameOnly
            · simp [hro, Except.map, pure, Except.pure]
            · simp only [hro, if_false, Bool.false_eq_true]
              constructor
              · simp [Except.map, pure, Except.pure,
                  hmv2 (fun _ => true) true false (childSize cs) cs opts.sourcePath (le_refl _)]
              · intro st mv hok
                simp only [pure, Except.pure, Except.ok.injEq, Prod.mk.injEq] at hok
                have hrw := hmv1 (fun _ => true) (childSize cs) cs opts.sourcePath (le_refl _)
                first
                | exact congrArg (fun t => some (FSNode.dir mt t)) hrw
                | simp_all
        · simp only [hpat]
          cases hc : c opts.pattern with
          | none => simp [Except.map]
          | some f =>
            simp only [if_neg hpat]
            cases src with
            | file sz mt =>
              by_cases hro : opts.renameOnly
              · simp [hro, Except.map, pure, Except.pure]
              · by_cases hif : (opts.includeFiles && f (basename opts.sourcePath)) = true
                · simp [hro, hif, Except.map, pure, Except.pure]
                · simp [hro, hif, Except.map, pure, Except.pure]
            | dir mt cs =>
              by_cases hro : opts.renameOnly
              · simp [hro, Except.map, pure, Except.pure]
              · simp only [hro, if_false, Bool.false_eq_true]
                constructor
                · simp [Except.map, pure, Except.pure,
                    hmv2 f true false (childSize cs) cs opts.sourcePath (le_refl _)]
                · intro st mv hok
                  simp only [pure, Except.pure, Except.ok.injEq, Prod.mk.injEq] at hok
                  have hrw := hmv1 f (childSize cs) cs opts.sourcePath (le_refl _)
                  first
                  | exact congrArg (fun t => some (FSNode.dir mt t)) hrw
                  | simp_all

/-- Witness for the amended C3 at a concrete delete invocation and a
concrete move invocation. -/
theorem dryrun_matches_live_nonshell_witness :
    ((deleteFilesModel anyOracle noPosix
        { dirPath := "/data/media/test", recursive := true, includeFiles := true,
          includeSubdirectories := true, useShell := false,
          stageTest := true } shellFixture).map Prod.snd =
      (deleteFilesModel anyOracle noPosix
        { dirPath := "/data/media/test", recursive := true, includeFiles := true,
          includeSubdirectories := true, useShell := false,
          stageTest := false } shellFixture).map Prod.snd) ∧
    ((moveFilesModel anyOracle
        { sourcePath := "/data/media/test", targetDir := "/data/media/dest",
          recursive := true, includeFiles := true,
          stageTest := true } (FSNode.dir 0 shellFixture)).map Prod.snd =
      (moveFilesModel anyOracle
        { sourcePath := "/data/media/test", targetDir := "/data/media/dest",
          recursive := true, includeFiles := true,
          stageTest := false } (FSNode.dir 0 shellFixture)).map Prod.snd) :=
  ⟨(dryrun_matches_live_nonshell.1 anyOracle noPosix
      { dirPath := "/data/media/test", recursive := true, includeFiles := true,
        includeSubdirectories := true, useShell := false } shellFixture rfl).1,
   (dryrun_matches_live_nonshell.2 anyOracle
      { sourcePath := "/data/media/test", targetDir := "/data/media/dest",
        recursive := true, includeFiles := true } (FSNode.dir 0 shellFixture)).1⟩

/-- C1 counterexample: `rename` mutates the filesystem with no
`ProtectionPolicy` check.  On the protected path `/etc/passwd` (which
`checkDirectorySafety` rejects under the default policy), the event trace
of `rename` consists of a `mkdir` and a `rename` — filesystem side
effects — and contains no safety-check event. -/
theorem rename_mutates_without_safety_check :
    checkDirectorySafety "/etc/passwd" DEFAULT_PROTECTION_CONFIG =
      Except.error "Operation on system directory is not allowed: /etc/passwd" ∧
    renameEvents "/etc/passwd" "/etc/passwd2" "" "" (fun _ => false) id true =
      [FsEvent.mkdirEv "/etc", FsEvent.renameEv "/etc/passwd" "/etc/passwd2"] := by
  exact ⟨rfl, rfl⟩

/-- C1 (amended): `deleteFiles`, `moveFiles`, `flattenDirectory` and
`cleanEmptyDirectories` run `checkDirectorySafety` on their target
path(s) before any side effect, and a policy violation aborts the whole
operation with no state change; but `rename` (and the fix-names
operation) perform their filesystem mutations without any policy check,
as per the counterexample. -/
theorem guarded_ops_abort_on_unsafe_path :
    (∀ (c : RegexOracle) (pm : String → String → Bool)
       (opts : DeleteFilesOptions) (root : FSChildren) (e : String),
       checkDirectorySafety opts.dirPath opts.protectionConfig = Except.error e →
       deleteFilesModel c pm opts root = Except.error e) ∧
    (∀ (c : RegexOracle) (opts : MoveFilesOptions) (src : FSNode) (e : String),
       checkDirectorySafety opts.sourcePath opts.protectionConfig = Except.error e →
       moveFilesModel c opts src = Except.error e) ∧
    (∀ (c : RegexOracle) (opts : MoveFilesOptions) (src : FSNode) (e : String),
       checkDirectorySafety opts.sourcePath opts.protectionConfig = Except.ok () →
       checkDirectorySafety opts.targetDir opts.protectionConfig = Except.error e →
       moveFilesModel c opts src = Except.error e) ∧
    (∀ (p : String) (cfg : DirectoryProtectionConfig) (ts : String)
       (root : FSChildren) (e : String),
       checkDirectorySafety p cfg = Except.error e →
       flattenDirectoryModel p cfg ts root = Except.error e) ∧
    (∀ (p : String) (rec : Bool) (cfg : DirectoryProtectionConfig)
       (root : FSChildren) (e : String),
       checkDirectorySafety p cfg = Except.error e →
       cleanEmptyDirectoriesModel p rec cfg root = Except.error e) := by
  refine ⟨?_, ?_, ?_, ?_, ?_⟩
  · intro c pm opts root e h
    simp [deleteFilesModel, h, Except.bind, bind]
  · intro c opts src e h
    simp [moveFilesModel, h, Except.bind, bind]
  · intro c opts src e h1 h2
    simp [moveFilesModel, h1, h2, Except.bind, bind]
  · intro p cfg ts root e h
    simp [flattenDirectoryModel, h, Except.bind, bind]
  · intro p rec cfg root e h
    simp [cleanEmptyDirectoriesModel, h, Except.bind, bind]

/-- Witness for the amended C1: the guarded operations all reject the
protected target `/etc/x` under the default policy. -/
theorem guarded_ops_abort_witness :
    deleteFilesModel anyOracle noPosix
      { dirPath := "/etc/x", protectionConfig := DEFAULT_PROTECTION_CONFIG }
      FSChildren.nil =
      Except.error "Operation on system directory is not allowed: /etc/x" ∧
    moveFilesModel anyOracle
      { sourcePath := "/etc/x", targetDir := "/data/media/dest",
        protectionConfig := DEFAULT_PROTECTION_CONFIG } (FSNode.dir 0 FSChildren.nil) =
      Except.error "Operation on system directory is not allowed: /etc/x" ∧
    flattenDirectoryModel "/etc/x" DEFAULT_PROTECTION_CONFIG "TS" FSChildren.nil =
      Except.error "Operation on system directory is not allowed: /etc/x" ∧
    cleanEmptyDirectoriesModel "/etc/x" true DEFAULT_PROTECTION_CONFIG FSChildren.nil =
      Except.error "Operation on system directory is not allowed: /etc/x" :=
  ⟨guarded_ops_abort_on_unsafe_path.1 anyOracle noPosix
      { dirPath := "/etc/x", protectionConfig := DEFAULT_PROTECTION_CONFIG }
      FSChildren.nil _ rfl,
   guarded_ops_abort_on_unsafe_path.2.1 anyOracle
      { sourcePath := "/etc/x", targetDir := "/data/media/dest",
        protectionConfig := DEFAULT_PROTECTION_CONFIG } (FSNode.dir 0 FSChildren.nil)
      _ rfl,
   guarded_ops_abort_on_unsafe_path.2.2.2.1 "/etc/x" DEFAULT_PROTECTION_CONFIG "TS"
      FSChildren.nil _ rfl,
   guarded_ops_abort_on_unsafe_path.2.2.2.2 "/etc/x" true DEFAULT_PROTECTION_CONFIG
      FSChildren.nil _ rfl⟩

/-- C4: flattening a root whose subtree holds two files both named
`a.txt` in different subdirectories (`d1/a.txt` and `d2/d3/a.txt`)
leaves exactly `a.txt` and `a_1.txt` directly in the root — the second
file receives the incrementing numeric suffix before its extension —
and after the bottom-up cleanup no subdirectory remains. -/
theorem flatten_two_collisions :
    flattenDirectoryModel "/data/media/test" {} "TS" flattenFixture =
      Except.ok (.cons "a.txt" (.file 3 100) (.cons "a_1.txt" (.file 4 200) .nil)) ∧
    childrenHasDir
      (.cons "a.txt" (.file 3 100) (.cons "a_1.txt" (.file 4 200) .nil)) = false :=
  ⟨rfl, rfl⟩

/-- C7 counterexample: `listDirectory` DOES throw on a syntactically
invalid include pattern — its `new RegExp(filter)` is not wrapped in
try/catch.  With an oracle on which the pattern `"("` fails to compile
(as it does in JavaScript), the whole pipeline rejects. -/
theorem listDirectory_throws_on_invalid_include :
    listDirectoryModel badParenOracle "/data/media/test" "name" "asc" "(" ""
      true true 1 false 100 shellFixture =
      Except.error "Invalid regular expression" := rfl

/-- C7 (amended): on a syntactically invalid include pattern, `findFiles`
never throws and keeps every entry (the compile error is caught and the
`continue` never runs), whereas `listDirectory` throws; only
`listDirectory`'s exclude pattern is protected by try/catch. -/
theorem invalid_include_pattern_fallback (compile : RegexOracle) (pat : String)
    (entries : List FileInfo) (hpat : pat ≠ "") (hc : compile pat = none) :
    findFilesApplyFilters compile pat "" entries = entries ∧
    applyIncludeListDirectory compile pat entries =
      Except.error "Invalid regular expression" := by
  constructor
  · unfold findFilesApplyFilters
    have hk : ∀ fi : FileInfo, findFilesKeep compile pat "" fi.name = true := by
      intro fi
      unfold findFilesKeep
      simp [hpat, hc]
    exact List.filter_eq_self.mpr fun a _ => hk a
  · unfold applyIncludeListDirectory
    simp [hpat, hc]

/-- Witness for the amended C7 at the concrete invalid pattern `"("`. -/
theorem invalid_include_pattern_fallback_witness :
    findFilesApplyFilters badParenOracle "(" "" [entryA] = [entryA] ∧
    applyIncludeListDirectory badParenOracle "(" [entryA] =
      Except.error "Invalid regular expression" :=
  invalid_include_pattern_fallback badParenOracle "(" [entryA] (by decide) rfl

/-! ### Depth bound of the walker -/

theorem mkFileInfo_depth (dirPath name : String) (node : FSNode) (d : Nat) :
    (mkFileInfo dirPath name node d).depth = d := by
  cases node <;> rfl

theorem walkChildren_depth_le (sf sd ol : Bool) (m : Nat) :
    ∀ (k : Nat) (cs : FSChildren) (p : String) (d : Nat), childSize cs ≤ k →
      ∀ e ∈ walkChildren sf sd ol m p d cs, e.depth ≤ min m 9 := by
  intro k
  induction k with
  | zero =>
    intro cs p d hsz e he
    cases cs with
    | nil => simp [walkChildren] at he
    | cons name n rest => simp [childSize] at hsz
  | succ k ih =>
    intro cs p d hsz e he
    cases cs with
    | nil => simp [walkChildren] at he
    | cons name n rest =>
      have hszr : childSize rest ≤ k := by
        simp [childSize] at hsz
        omega
      by_cases hgt : d > min m 9
      · unfold walkChildren at he
        simp [hgt] at he
      · push_neg at hgt
        cases n with
        | file sz mt =>
          unfold walkChildren at he
          rw [if_neg (by omega : ¬ d > min m 9)] at he
          by_cases hsf : sf
          · subst hsf
            simp [List.mem_append] at he
            rcases he with rfl | he
            · rw [mkFileInfo_depth]
              exact hgt
            · exact ih rest p d hszr e he
          · rw [Bool.not_eq_true] at hsf
            subst hsf
            simp [List.mem_append] at he
            exact ih rest p d hszr e he
        | dir mt cs2 =>
          have hszc : childSize cs2 ≤ k := by
            simp [childSize, nodeSize] at hsz
            omega
          unfold walkChildren at he
          rw [if_neg (by omega : ¬ d > min m 9)] at he
          by_cases hcond : (sd && (!ol || !childrenHasDir cs2)) = true
          · by_cases hlt : d < min m 9
            · simp [hcond, hlt, List.mem_append] at he
              rcases he with rfl | he | he
              · rw [mkFileInfo_depth]
                exact hgt
              · exact ih cs2 (joinName p name) (d + 1) hszc e he
              · exact ih rest p d hszr e he
            · simp [hcond, hlt, List.mem_append] at he
              rcases he with rfl | he
              · rw [mkFileInfo_depth]
                exact hgt
              · exact ih rest p d hszr e he
          · by_cases hlt : d < min m 9
            · simp [hcond, hlt, List.mem_append] at he
              rcases he with he | he
              · exact ih cs2 (joinName p name) (d + 1) hszc e he
              · exact ih rest p d hszr e he
            · simp [hcond, hlt, List.mem_append] at he
              exact ih rest p d hszr e he

/-- C8: no entry emitted by the walker has depth greater than the
effective maximum depth; the `maxDepth` option is clamped into `[1, 9]`
before use, and in particular a walk with `maxDepth = 2` never yields an
entry of depth greater than 2. -/
theorem walker_respects_clamped_maxDepth :
    (∀ (sf sd ol : Bool) (m : Nat) (p : String) (root : FSChildren) (e : FileInfo),
       e ∈ listDirectoryEntries sf sd ol m p root → e.depth ≤ min (max m 1) 9) ∧
    (∀ m : Nat, 1 ≤ min (max m 1) 9 ∧ min (max m 1) 9 ≤ 9) ∧
    (∀ (sf sd ol : Bool) (p : String) (root : FSChildren) (e : FileInfo),
       e ∈ listDirectoryEntries sf sd ol 2 p root → e.depth ≤ 2) := by
  have hmain : ∀ (sf sd ol : Bool) (m : Nat) (p : String) (root : FSChildren)
      (e : FileInfo), e ∈ listDirectoryEntries sf sd ol m p root →
      e.depth ≤ min (max m 1) 9 := by
    intro sf sd ol m p root e he
    unfold listDirectoryEntries at he
    have := walkChildren_depth_le sf sd ol (min (max m 1) 9) (childSize root) root p 1
      (le_refl _) e he
    omega
  refine ⟨hmain, ?_, ?_⟩
  · intro m
    omega
  · intro sf sd ol p root e he
    have := hmain sf sd ol 2 p root e he
    omega

/-- Witness for C8: a concrete entry of the fixture walk at
`maxDepth = 2` has depth within the clamped bound. -/
theorem walker_respects_clamped_maxDepth_witness :
    ({ name := "d1", path := "/r/d1", parent := "/r", ftype := "directory",
       size := 0, mtime := 10, depth := 1, hasSubDirs := true } : FileInfo).depth ≤ 2 :=
  walker_respects_clamped_maxDepth.2.2 true true false "/r" walkFixture
    { name := "d1", path := "/r/d1", parent := "/r", ftype := "directory",
      size := 0, mtime := 10, depth := 1, hasSubDirs := true } (by decide)

/-! ### Sorting lemmas -/

theorem char_eq_of_toNat_eq {a b : Char} (h : a.toNat = b.toNat) : a = b := by
  have h2 := congrArg Char.ofNat h
  rwa [Char.ofNat_toNat, Char.ofNat_toNat] at h2

theorem charListLt_asymm :
    ∀ x y : List Char, charListLt x y = true → charListLt y x = false := by
  intro x
  induction x with
  | nil =>
    intro y h
    cases y with
    | nil => simp [charListLt] at h
    | cons b bs => rfl
  | cons a as ih =>
    intro y h
    cases y with
    | nil => simp [charListLt] at h
    | cons b bs =>
      unfold charListLt at h ⊢
      by_cases h1 : a.toNat < b.toNat
      · rw [if_neg (by omega : ¬ b.toNat < a.toNat), if_pos h1]
      · rw [if_neg h1] at h
        by_cases h2 : b.toNat < a.toNat
        · rw [if_pos h2] at h
          exact absurd h (by simp)
        · rw [if_neg h2] at h
          rw [if_neg h2, if_neg h1]
          exact ih bs h

theorem charListLt_cotrans :
    ∀ (x z : List Char), charListLt x z = true →
      ∀ y, charListLt x y = true ∨ charListLt y z = true := by
  intro x
  induction x with
  | nil =>
    intro z h y
    cases z with
    | nil => simp [charListLt] at h
    | cons c cs =>
      cases y with
      | nil => exact Or.inr rfl
      | cons b bs => exact Or.inl rfl
  | cons a as ih =>
    intro z h y
    cases z with
    | nil => simp [charListLt] at h
    | cons c cs =>
      cases y with
      | nil => exact Or.inr rfl
      | cons b bs =>
        unfold charListLt at h ⊢
        by_cases hab : a.toNat < b.toNat
        · exact Or.inl (by rw [if_pos hab])
        · by_cases hba : b.toNat < a.toNat
          · -- b < a; from h, a ≤ c, so b < c
            refine Or.inr ?_
            by_cases hac : a.toNat < c.toNat
            · rw [if_pos (by omega : b.toNat < c.toNat)]
            · rw [if_neg hac] at h
              by_cases hca : c.toNat < a.toNat
              · rw [if_pos hca] at h
                exact absurd h (by simp)
              · rw [if_pos (by omega : b.toNat < c.toNat)]
          · -- a and b have equal code points
            by_cases hac : a.toNat < c.toNat
            · refine Or.inr ?_
              rw [if_pos (by omega : b.toNat < c.toNat)]
            · rw [if_neg hac] at h
              by_cases hca : c.toNat < a.toNat
              · rw [if_pos hca] at h
                exact absurd h (by simp)
              · rw [if_neg hca] at h
                rcases ih cs h bs with h2 | h2
                · exact Or.inl (by rw [if_neg hab, if_neg hba]; exact h2)
                · refine Or.inr ?_
                  rw [if_neg (by omega : ¬ b.toNat < c.toNat),
                    if_neg (by omega : ¬ c.toNat < b.toNat)]
                  exact h2

theorem charListLt_conn :
    ∀ x y : List Char, charListLt x y = false → charListLt y x = false → x = y := by
  intro x
  induction x with
  | nil =>
    intro y h1 h2
    cases y with
    | nil => rfl
    | cons b bs => exact absurd h1 (by simp [charListLt])
  | cons a as ih =>
    intro y h1 h2
    cases y with
    | nil => exact absurd h2 (by simp [charListLt])
    | cons b bs =>
      unfold charListLt at h1 h2
      by_cases hab : a.toNat < b.toNat
      · rw [if_pos hab] at h1
        exact absurd h1 (by simp)
      · by_cases hba : b.toNat < a.toNat
        · rw [if_pos hba] at h2
          exact absurd h2 (by simp)
        · rw [if_neg hab, if_neg hba] at h1
          rw [if_neg hba, if_neg hab] at h2
          rw [char_eq_of_toNat_eq (by omega : a.toNat = b.toNat), ih bs h1 h2]

theorem strCmp_nonpos (a b : String) : strCmp a b ≤ 0 ↔ lexLe a b := by
  unfold strCmp lexLe
  by_cases h1 : charListLt a.toList b.toList = true
  · rw [if_pos h1, charListLt_asymm _ _ h1]
    simp
  · rw [if_neg h1]
    by_cases h2 : charListLt b.toList a.toList = true
    · rw [if_pos h2, h2]
      constructor
      · intro h
        exact absurd h (by decide)
      · intro h
        exact absurd h (by simp)
    · rw [if_neg h2]
      simp only [Bool.not_eq_true] at h2
      rw [h2]
      simp

theorem strCmp_nonneg (a b : String) : 0 ≤ strCmp a b ↔ lexLe b a := by
  unfold strCmp lexLe
  by_cases h1 : charListLt a.toList b.toList = true
  · rw [if_pos h1, h1]
    constructor
    · intro h
      exact absurd h (by decide)
    · intro h
      exact absurd h (by simp)
  · rw [if_neg h1]
    simp only [Bool.not_eq_true] at h1
    by_cases h2 : charListLt b.toList a.toList = true
    · rw [if_pos h2, h1]
      simp
    · rw [if_neg h2, h1]
      simp

theorem lexLe_total (a b : String) : lexLe a b ∨ lexLe b a := by
  unfold lexLe
  by_cases h : charListLt b.toList a.toList = true
  · exact Or.inr (charListLt_asymm _ _ h)
  · exact Or.inl (by simpa using h)

theorem lexLe_trans {a b c : String} (h1 : lexLe a b) (h2 : lexLe b c) :
    lexLe a c := by
  unfold lexLe at h1 h2 ⊢
  by_cases h : charListLt c.toList a.toList = true
  · rcases charListLt_cotrans _ _ h b.toList with h3 | h3
    · rw [h2] at h3
      exact absurd h3 (by simp)
    · rw [h1] at h3
      exact absurd h3 (by simp)
  · simpa using h

theorem lexLe_antisymm {a b : String} (h1 : lexLe a b) (h2 : lexLe b a) :
    a = b := by
  unfold lexLe at h1 h2
  have h3 := charListLt_conn a.toList b.toList h2 h1
  have h4 := congrArg String.mk h3
  exact h4

theorem jsStableSort_sorted (cmp : FileInfo → FileInfo → Int)
    (htot : ∀ a b, cmp a b ≤ 0 ∨ cmp b a ≤ 0)
    (htr : ∀ a b c, cmp a b ≤ 0 → cmp b c ≤ 0 → cmp a c ≤ 0) (l : List FileInfo) :
    List.Pairwise (fun a b => cmp a b ≤ 0) (jsStableSort cmp l) := by
  haveI : IsTotal FileInfo (fun a b => cmp a b ≤ 0) := ⟨htot⟩
  haveI : IsTrans FileInfo (fun a b => cmp a b ≤ 0) := ⟨fun a b c => htr a b c⟩
  exact List.sorted_insertionSort _ l

theorem jsStableSort_perm (cmp : FileInfo → FileInfo → Int) (l : List FileInfo) :
    (jsStableSort cmp l).Perm l :=
  List.perm_insertionSort _ l

theorem eq_of_perm_of_pairwise_on {α : Type} {r : α → α → Prop} :
    ∀ (l₁ l₂ : List α), l₁.Perm l₂ → List.Pairwise r l₁ → List.Pairwise r l₂ →
      (∀ a ∈ l₁, ∀ b ∈ l₁, r a b → r b a → a = b) → l₁ = l₂ := by
  intro l₁
  induction l₁ with
  | nil =>
    intro l₂ hp _ _ _
    exact hp.nil_eq
  | cons a t₁ ih =>
    intro l₂ hp hs₁ hs₂ hanti
    cases l₂ with
    | nil => exact absurd hp.eq_nil (by simp)
    | cons b t₂ =>
      have hab : a = b := by
        have ha2 : a ∈ b :: t₂ := hp.subset (List.mem_cons_self a t₁)
        rcases List.mem_cons.mp ha2 with h | ha3
        · exact h
        · have hb1 : b ∈ a :: t₁ := hp.symm.subset (List.mem_cons_self b t₂)
          rcases List.mem_cons.mp hb1 with h | hb3
          · exact h.symm
          · have hr1 : r a b := (List.pairwise_cons.mp hs₁).1 b hb3
            have hr2 : r b a := (List.pairwise_cons.mp hs₂).1 a ha3
            exact hanti a (List.mem_cons_self a t₁) b (List.mem_cons_of_mem a hb3) hr1 hr2
      subst hab
      have hpt : t₁.Perm t₂ := hp.cons_inv
      have ht12 : t₁ = t₂ :=
        ih t₂ hpt (List.pairwise_cons.mp hs₁).2 (List.pairwise_cons.mp hs₂).2
          (fun x hx y hy hr1 hr2 =>
            hanti x (List.mem_cons_of_mem a hx) y (List.mem_cons_of_mem a hy) hr1 hr2)
      rw [ht12]

theorem pairwise_key_unique {α β : Type} {f : α → β} :
    ∀ (l : List α), List.Pairwise (fun a b => f a ≠ f b) l →
      ∀ a ∈ l, ∀ b ∈ l, f a = f b → a = b := by
  intro l
  induction l with
  | nil =>
    intro _ a ha
    simp at ha
  | cons c cs ih =>
    intro h a ha b hb heq
    rcases List.mem_cons.mp ha with rfl | ha2
    · rcases List.mem_cons.mp hb with rfl | hb2
      · rfl
      · exact absurd heq ((List.pairwise_cons.mp h).1 b hb2)
    · rcases List.mem_cons.mp hb with rfl | hb2
      · exact absurd heq.symm ((List.pairwise_cons.mp h).1 a ha2)
      · exact ih (List.pairwise_cons.mp h).2 a ha2 b hb2 heq

theorem listDirCmp_name_asc_le (a b : FileInfo) :
    listDirCmp "name" "asc" a b ≤ 0 ↔ lexLe a.name b.name := by
  show strCmp a.name b.name ≤ 0 ↔ lexLe a.name b.name
  exact strCmp_nonpos _ _

theorem listDirCmp_name_desc_le (a b : FileInfo) :
    listDirCmp "name" "desc" a b ≤ 0 ↔ lexLe b.name a.name := by
  show -strCmp a.name b.name ≤ 0 ↔ lexLe b.name a.name
  rw [neg_nonpos]
  exact strCmp_nonneg _ _

theorem listDirCmp_mtime_asc_le (a b : FileInfo) :
    listDirCmp "mtime" "asc" a b ≤ 0 ↔ b.mtime ≤ a.mtime := by
  show b.mtime - a.mtime ≤ 0 ↔ b.mtime ≤ a.mtime
  omega

theorem findFilesCmp_mtime_asc_le (a b : FileInfo) :
    findFilesCmp "mtime" "asc" a b ≤ 0 ↔ a.mtime ≤ b.mtime := by
  show a.mtime - b.mtime ≤ 0 ↔ a.mtime ≤ b.mtime
  omega

/-- C9 counterexample: in `listDirectory`, `sortBy="mtime"` with
direction `"asc"` yields NEWEST-first order (the comparator is
`b.mtime - a.mtime`), not chronological order: on `[entryA (mtime 100),
entryB1 (mtime 300)]` the "ascending" result is `[entryB1, entryA]`.
And for two entries with equal names, the stable sort returns them in
input order for both directions, so the descending order is not the
exact reverse of the ascending order. -/
theorem listDirectory_sort_counterexample :
    sortListDirectory "mtime" "asc" [entryA, entryB1] = [entryB1, entryA] ∧
    sortListDirectory "name" "desc" [entryB1, entryB2] ≠
      (sortListDirectory "name" "asc" [entryB1, entryB2]).reverse := by
  exact ⟨by decide, by decide⟩

/-- C9 (amended): sorting with `sortBy="name"`, direction `"asc"` yields
non-decreasing lexicographic name order; the `"desc"` direction negates
the comparator, so on entry lists with pairwise-distinct names the
descending order is exactly the reverse of the ascending one;
`listDirectory`'s `"mtime"` ascending order is NON-INCREASING in mtime
(reverse chronological), while `findFiles`'s `"mtime"` ascending order is
chronological (non-decreasing). -/
theorem sort_behavior_amended :
    (∀ l, List.Pairwise (fun a b : FileInfo => lexLe a.name b.name)
        (sortListDirectory "name" "asc" l)) ∧
    (∀ l, List.Pairwise (fun a b : FileInfo => a.name ≠ b.name) l →
        sortListDirectory "name" "desc" l =
          (sortListDirectory "name" "asc" l).reverse) ∧
    (∀ l, List.Pairwise (fun a b : FileInfo => b.mtime ≤ a.mtime)
        (sortListDirectory "mtime" "asc" l)) ∧
    (∀ l, List.Pairwise (fun a b : FileInfo => a.mtime ≤ b.mtime)
        (sortFindFiles "mtime" "asc" l)) := by
  have hasc : ∀ l, List.Pairwise (fun a b : FileInfo => lexLe a.name b.name)
      (sortListDirectory "name" "asc" l) := by
    intro l
    have hs := jsStableSort_sorted (listDirCmp "name" "asc")
      (fun a b => by
        rw [listDirCmp_name_asc_le, listDirCmp_name_asc_le]
        exact lexLe_total a.name b.name)
      (fun a b c h1 h2 => by
        rw [listDirCmp_name_asc_le] at h1 h2 ⊢
        exact lexLe_trans h1 h2) l
    exact hs.imp fun h => (listDirCmp_name_asc_le _ _).mp h
  refine ⟨hasc, ?_, ?_, ?_⟩
  · intro l hdist
    have hdesc : List.Pairwise (fun a b : FileInfo => listDirCmp "name" "desc" a b ≤ 0)
        (sortListDirectory "name" "desc" l) :=
      jsStableSort_sorted (listDirCmp "name" "desc")
        (fun a b => by
          rw [listDirCmp_name_desc_le, listDirCmp_name_desc_le]
          exact lexLe_total b.name a.name)
        (fun a b c h1 h2 => by
          rw [listDirCmp_name_desc_le] at h1 h2 ⊢
          exact lexLe_trans h2 h1) l
    have hrev : List.Pairwise (fun a b : FileInfo => listDirCmp "name" "desc" a b ≤ 0)
        (sortListDirectory "name" "asc" l).reverse := by
      rw [List.pairwise_reverse]
      exact (hasc l).imp fun h => (listDirCmp_name_desc_le _ _).mpr h
    have hperm : (sortListDirectory "name" "desc" l).Perm
        (sortListDirectory "name" "asc" l).reverse := by
      refine (jsStableSort_perm _ l).trans ?_
      refine ((jsStableSort_perm (listDirCmp "name" "asc") l).symm).trans ?_
      exact (List.reverse_perm _).symm
    refine eq_of_perm_of_pairwise_on _ _ hperm hdesc hrev ?_
    intro a ha b hb h1 h2
    rw [listDirCmp_name_desc_le] at h1 h2
    have hmem : ∀ x ∈ sortListDirectory "name" "desc" l, x ∈ l :=
      fun x hx => (jsStableSort_perm _ l).subset hx
    exact pairwise_key_unique l hdist a (hmem a ha) b (hmem b hb)
      (lexLe_antisymm h2 h1)
  · intro l
    have hs := jsStableSort_sorted (listDirCmp "mtime" "asc")
      (fun a b => by
        rw [listDirCmp_mtime_asc_le, listDirCmp_mtime_asc_le]
        omega)
      (fun a b c h1 h2 => by
        rw [listDirCmp_mtime_asc_le] at h1 h2 ⊢
        omega) l
    exact hs.imp fun h => (listDirCmp_mtime_asc_le _ _).mp h
  · intro l
    have hs := jsStableSort_sorted (findFilesCmp "mtime" "asc")
      (fun a b => by
        rw [findFilesCmp_mtime_asc_le, findFilesCmp_mtime_asc_le]
        omega)
      (fun a b c h1 h2 => by
        rw [findFilesCmp_mtime_asc_le] at h1 h2 ⊢
        omega) l
    exact hs.imp fun h => (findFilesCmp_mtime_asc_le _ _).mp h

/-- Witness for the amended C9 at concrete two-entry lists (the
exact-reversal part applied to entries with distinct names). -/
theorem sort_behavior_amended_witness :
    List.Pairwise (fun a b : FileInfo => lexLe a.name b.name)
      (sortListDirectory "name" "asc" [entryB1, entryA]) ∧
    sortListDirectory "name" "desc" [entryA, entryB1] =
      (sortListDirectory "name" "asc" [entryA, entryB1]).reverse :=
  ⟨sort_behavior_amended.1 [entryB1, entryA],
   sort_behavior_amended.2.1 [entryA, entryB1] (by decide)⟩
